import Mathlib

/-!
# The `distort` video filter of vlc (`plugins/filter/distort.c`)

A shallow embedding of the two picture transforms `DistortWave` and
`DistortRipple`, of the animation clock they advance, of the per-line
shift-and-fill they share, and of `vout_Create`, `vout_Init` and `vout_Display`
around them.

Conventions of the embedding.

* A plane buffer is a `List UInt8`; a C pointer into it (`p_in`, `p_out`) is an
  `Int` byte offset from the start of the buffer.  A copy or fill that leaves
  its buffers yields `none`.
* C `int` quantities are integers; the one product that can leave the `int`
  range on a plane that fits in memory, `i_num_lines * 4`, is wrapped to 32 bits.
  `mtime_t` is a signed 64-bit count of microseconds; the difference of two
  dates is wrapped to 64 bits.
* A `double` is the rational it denotes.  Every floating-point operation is the
  exact operation followed by the rounding `Host.fl` of the platform; `sin` is the
  one of the C library, `Host.sin`.  Nothing is assumed of them in the
  definitions; the theorems that need it say what they assume (`Host.Sound`).
-/

namespace Distort

/-! ## What the platform and the vlc headers supply -/

/-- Modelled from the spec: the things `distort.c` takes from outside, none of
which is in the sources: the index `Y_PLANE` of the luma plane (`video.h`), the
rounding of an exact result to a `double`, and `sin` of `math.h`. -/
structure Host where
  /-- index of the luma plane -/
  Y_PLANE : Int
  /-- rounding of an exact value to the nearest `double` -/
  fl : ℚ → ℚ
  /-- the `sin` of the C library, on `double`s -/
  sin : ℚ → ℚ

namespace Host

/-- Conversion `(double)i` of an integer. -/
def ofInt (h : Host) (i : Int) : ℚ := h.fl (i : ℚ)

/-- Addition `a + b` of two `double`s. -/
def add (h : Host) (a b : ℚ) : ℚ := h.fl (a + b)

/-- Subtraction `a - b` of two `double`s. -/
def sub (h : Host) (a b : ℚ) : ℚ := h.fl (a - b)

/-- Product `a * b` of two `double`s. -/
def mul (h : Host) (a b : ℚ) : ℚ := h.fl (a * b)

/-- Quotient `a / b` of two `double`s. -/
def div (h : Host) (a b : ℚ) : ℚ := h.fl (a / b)

/-- What the theorems on offsets and phases assume of the platform; all of it
holds of IEEE-754 binary64 with a rounding to nearest: rounding is monotone, it
leaves `m / 2^k` alone when `|m| ≤ 2^53` and `k ≤ 64` (such a value is a
`double`), it leaves a rounded value alone, and `sin` stays within `[-1, 1]`. -/
structure Sound (h : Host) : Prop where
  mono : ∀ x y : ℚ, x ≤ y → h.fl x ≤ h.fl y
  idem : ∀ x : ℚ, h.fl (h.fl x) = h.fl x
  dyadic : ∀ (m : Int) (k : Nat), |m| ≤ 2 ^ 53 → k ≤ 64 →
    h.fl ((m : ℚ) / 2 ^ k) = (m : ℚ) / 2 ^ k
  sin_le : ∀ x : ℚ, |h.sin x| ≤ 1

end Host

/-- Conversion of a `double` to `int`: the fractional part is discarded
(truncation toward zero). -/
def toInt (x : ℚ) : Int := if 0 ≤ x then ⌊x⌋ else ⌈x⌉

/-- A value reduced to the range of a signed 32-bit `int`. -/
def wrap32 (x : Int) : Int := (x + 2 ^ 31) % 2 ^ 32 - 2 ^ 31

/-- A value reduced to the range of a signed 64-bit `mtime_t`. -/
def wrap64 (x : Int) : Int := (x + 2 ^ 63) % 2 ^ 64 - 2 ^ 63

/-! ## Data model -/

/-- Modelled from the spec: a plane of a picture (`video.h` is not in the
sources), with the three fields `distort.c` reads: the buffer `p_data`, its
size `i_bytes`, and the length `i_line_bytes` of a line. -/
structure plane_t where
  p_data : List UInt8
  i_bytes : Int
  i_line_bytes : Int
deriving DecidableEq, Repr

/-- Modelled from the spec: a picture (`video.h` is not in the sources): the
number `i_planes` of planes in use, and the planes. -/
structure picture_t where
  i_planes : Int
  planes : List plane_t
deriving DecidableEq, Repr

/-- The fields of `vout_sys_t` (lines 75-84) the transforms use. -/
structure vout_sys_t where
  i_mode : Int
  f_angle : ℚ
  last_date : Int
deriving DecidableEq, Repr

/-- `DISTORT_MODE_WAVE` (line 40). -/
def DISTORT_MODE_WAVE : Int := 1

/-- `DISTORT_MODE_RIPPLE` (line 41). -/
def DISTORT_MODE_RIPPLE : Int := 2

/-- An input plane and the output plane it is transformed into have matching
geometry: the same positive line length and the same size, within the range of
an `int`, and each buffer holds `i_bytes` bytes. -/
structure Matching (inp outp : plane_t) : Prop where
  line_pos : 0 < inp.i_line_bytes
  line_int : inp.i_line_bytes < 2 ^ 31
  bytes_nonneg : 0 ≤ inp.i_bytes
  bytes_int : inp.i_bytes < 2 ^ 31
  in_len : (inp.p_data.length : Int) = inp.i_bytes
  out_line : outp.i_line_bytes = inp.i_line_bytes
  out_bytes : outp.i_bytes = inp.i_bytes
  out_len : (outp.p_data.length : Int) = outp.i_bytes

/-- An input picture and the output picture it is transformed into have
matching geometry: both hold the `i_planes` planes of the input, and plane by
plane the geometry matches. -/
structure MatchingPictures (inpic outpic : picture_t) : Prop where
  planes_nonneg : 0 ≤ inpic.i_planes
  in_planes : inpic.i_planes ≤ inpic.planes.length
  out_planes : inpic.i_planes ≤ outpic.planes.length
  plane : ∀ (p : Nat) (a b : plane_t), (p : Int) < inpic.i_planes →
    inpic.planes[p]? = some a → outpic.planes[p]? = some b → Matching a b

/-! ## Memory operations -/

/-- Modelled from the spec: `FAST_MEMCPY( dst + d, src + s, n )`, a macro of the
vlc headers for `memcpy`: `n` bytes of `src` from offset `s` replace the `n`
bytes of `dst` from offset `d`.  A negative `n` (a huge `size_t`) or a range
that leaves a buffer yields `none`. -/
def FAST_MEMCPY (dst : List UInt8) (d : Int) (src : List UInt8) (s n : Int) :
    Option (List UInt8) :=
  if 0 ≤ n ∧ 0 ≤ d ∧ d + n ≤ dst.length ∧ 0 ≤ s ∧ s + n ≤ src.length then
    some (dst.take d.toNat ++ ((src.drop s.toNat).take n.toNat ++ dst.drop (d + n).toNat))
  else none

/-- The C library `memset( dst + d, c, n )`: the `n` bytes of `dst` from offset
`d` become `c`.  A negative `n` or a range that leaves the buffer yields `none`. -/
def memset (dst : List UInt8) (d : Int) (c : UInt8) (n : Int) : Option (List UInt8) :=
  if 0 ≤ n ∧ 0 ≤ d ∧ d + n ≤ dst.length then
    some (dst.take d.toNat ++ (List.replicate n.toNat c ++ dst.drop (d + n).toNat))
  else none

/-! ## One line: shift and fill (lines 345-370 and 424-449) -/

/-- The variables a line loop carries from one line to the next: the two
pointers, as byte offsets into the input and the output buffer, and the content
of the output buffer. -/
structure Cursor where
  p_in : Int
  p_out : Int
  out : List UInt8
deriving DecidableEq, Repr

/-- The body of the line loop once `i_offset` is known, lines 345-370 of
`DistortWave` and 424-449 of `DistortRipple`.  The two differ in one thing, the
step of `p_in`: `in_step` is `+i_line_bytes` in the wave, `-i_line_bytes` in the
ripple.  `in_lb` and `out_lb` are the line lengths of the input and of the
output plane, `src` the input buffer. -/
def distortLine (black_pixel : UInt8) (src : List UInt8) (in_lb out_lb in_step : Int)
    (i_offset : Int) (c : Cursor) : Option Cursor :=
  if i_offset ≠ 0 then
    if i_offset < 0 then
      (FAST_MEMCPY c.out c.p_out src (c.p_in - i_offset) (in_lb + i_offset)).bind fun m1 =>
        let p_in := c.p_in + in_step
        let p_out := c.p_out + out_lb
        (memset m1 (p_out + i_offset) black_pixel (-i_offset)).bind fun m2 =>
          some ⟨p_in, p_out, m2⟩
    else
      (FAST_MEMCPY c.out (c.p_out + i_offset) src c.p_in (in_lb - i_offset)).bind fun m1 =>
        (memset m1 c.p_out black_pixel i_offset).bind fun m2 =>
          some ⟨c.p_in + in_step, c.p_out + out_lb, m2⟩
  else
    (FAST_MEMCPY c.out c.p_out src c.p_in in_lb).bind fun m1 =>
      some ⟨c.p_in + in_step, c.p_out + out_lb, m1⟩

/-- The number of lines of a plane, `i_num_lines` (lines 331-332 and 398-399);
the division of C truncates. -/
def i_num_lines (p : plane_t) : Int := Int.tdiv p.i_bytes p.i_line_bytes

/-- The fill byte of plane `i_index` (lines 334 and 396). -/
def black_pixel (h : Host) (i_index : Int) : UInt8 :=
  if i_index = h.Y_PLANE then 0x00 else 0x80

/-! ## The wave (lines 311-374) -/

/-- The offset of line `i_line`, lines 340-343: `i_line_bytes` is `lb`,
`i_num_lines` is `n`. -/
def waveOffset (h : Host) (f_angle : ℚ) (lb n i_line : Int) : Int :=
  toInt (h.div (h.mul (h.ofInt lb)
      (h.sin (h.add f_angle (h.div (h.mul 10 (h.ofInt i_line)) (h.ofInt n))))) 20)

/-- The line loop of the wave, lines 337-372, with `k` lines left to do and
`i_line` the next one. -/
def waveLines (h : Host) (f_angle : ℚ) (black : UInt8) (inp : plane_t) (out_lb n : Int) :
    Nat → Int → Cursor → Option Cursor
  | 0, _, c => some c
  | k + 1, i_line, c =>
    (distortLine black inp.p_data inp.i_line_bytes out_lb inp.i_line_bytes
        (waveOffset h f_angle inp.i_line_bytes n i_line) c).bind
      (waveLines h f_angle black inp out_lb n k (i_line + 1))

/-- The body of the plane loop of `DistortWave`, lines 324-372, for plane
`i_index`: the new content of the output plane.  A zero `i_line_bytes` (a
division by zero) yields `none`. -/
def wavePlane (h : Host) (f_angle : ℚ) (i_index : Int) (inp outp : plane_t) :
    Option plane_t :=
  if inp.i_line_bytes = 0 then none
  else
    (waveLines h f_angle (black_pixel h i_index) inp outp.i_line_bytes (i_num_lines inp)
        (i_num_lines inp).toNat 0 ⟨0, 0, outp.p_data⟩).map fun c => { outp with p_data := c.out }

/-- The plane loop of `DistortWave`, line 322, with `k` planes left to do and
`i_index` the next one. -/
def wavePlanes (h : Host) (f_angle : ℚ) (inpic : picture_t) :
    Nat → Nat → picture_t → Option picture_t
  | 0, _, outpic => some outpic
  | k + 1, i_index, outpic =>
    (inpic.planes[i_index]?).bind fun inp =>
      (outpic.planes[i_index]?).bind fun outp =>
        (wavePlane h f_angle i_index inp outp).bind fun outp1 =>
          wavePlanes h f_angle inpic k (i_index + 1)
            { outpic with planes := outpic.planes.set i_index outp1 }

/-- The clock of the wave, lines 318-319; `new_date` is what `mdate()`
returned. -/
def waveClock (h : Host) (sys : vout_sys_t) (new_date : Int) : vout_sys_t :=
  { sys with
    f_angle := h.add sys.f_angle (h.div (h.ofInt (wrap64 (new_date - sys.last_date))) 200000)
    last_date := new_date }

/-- `DistortWave` (lines 311-374): the state of the filter after the call, and
the output picture (`none` when a copy left its buffers). -/
def DistortWave (h : Host) (sys : vout_sys_t) (new_date : Int) (inpic outpic : picture_t) :
    vout_sys_t × Option picture_t :=
  let sys1 := waveClock h sys new_date
  (sys1, wavePlanes h sys1.f_angle inpic inpic.i_planes.toNat 0 outpic)

/-! ## The ripple (lines 379-453) -/

/-- The offset of line `i_line`, lines 416-422: `i_line_bytes` is `lb`,
`i_num_lines` is `n`, `i_first_line` is `f`. -/
def rippleOffset (h : Host) (f_angle : ℚ) (lb n f i_line : Int) : Int :=
  toInt (h.div (h.div (h.mul (h.mul (h.ofInt lb)
      (h.sin (h.add f_angle (h.div (h.mul 2 (h.ofInt i_line)) (h.ofInt (1 + i_line - f))))))
      (h.ofInt (i_line - f))) (h.ofInt n)) 8)

/-- The first line of the ripple, line 401. -/
def firstLine (i_num_lines : Int) : Int := Int.tdiv (wrap32 (i_num_lines * 4)) 5

/-- The line loop of the ripple, lines 413-451, with `k` lines left to do and
`i_line` the next one. -/
def rippleLines (h : Host) (f_angle : ℚ) (black : UInt8) (inp : plane_t) (out_lb n f : Int) :
    Nat → Int → Cursor → Option Cursor
  | 0, _, c => some c
  | k + 1, i_line, c =>
    (distortLine black inp.p_data inp.i_line_bytes out_lb (-inp.i_line_bytes)
        (rippleOffset h f_angle inp.i_line_bytes n f i_line) c).bind
      (rippleLines h f_angle black inp out_lb n f k (i_line + 1))

/-- The state of the line loop of `DistortRipple` for plane `i_index` after `k`
lines of the band: lines 396-410 (the copy of the lines above `i_first_line`,
the two pointers set to line `i_first_line`), then `k` rounds of the loop of
line 413. -/
def rippleCursor (h : Host) (f_angle : ℚ) (i_index : Int) (inp outp : plane_t) (k : Nat) :
    Option Cursor :=
  let i_first_line := firstLine (i_num_lines inp)
  (FAST_MEMCPY outp.p_data 0 inp.p_data 0 (i_first_line * inp.i_line_bytes)).bind fun m0 =>
    rippleLines h f_angle (black_pixel h i_index) inp outp.i_line_bytes (i_num_lines inp)
      i_first_line k i_first_line
      ⟨i_first_line * inp.i_line_bytes, i_first_line * outp.i_line_bytes, m0⟩

/-- The body of the plane loop of `DistortRipple`, lines 392-451, for plane
`i_index`: the new content of the output plane, once the loop of line 413 has
run from `i_first_line` to `i_num_lines`.  A zero `i_line_bytes` (a division by
zero) yields `none`. -/
def ripplePlane (h : Host) (f_angle : ℚ) (i_index : Int) (inp outp : plane_t) :
    Option plane_t :=
  if inp.i_line_bytes = 0 then none
  else
    (rippleCursor h f_angle i_index inp outp
        (i_num_lines inp - firstLine (i_num_lines inp)).toNat).map
      fun c => { outp with p_data := c.out }

/-- The plane loop of `DistortRipple`, line 390. -/
def ripplePlanes (h : Host) (f_angle : ℚ) (inpic : picture_t) :
    Nat → Nat → picture_t → Option picture_t
  | 0, _, outpic => some outpic
  | k + 1, i_index, outpic =>
    (inpic.planes[i_index]?).bind fun inp =>
      (outpic.planes[i_index]?).bind fun outp =>
        (ripplePlane h f_angle i_index inp outp).bind fun outp1 =>
          ripplePlanes h f_angle inpic k (i_index + 1)
            { outpic with planes := outpic.planes.set i_index outp1 }

/-- The clock of the ripple, lines 386-387. -/
def rippleClock (h : Host) (sys : vout_sys_t) (new_date : Int) : vout_sys_t :=
  { sys with
    f_angle := h.sub sys.f_angle (h.div (h.ofInt (wrap64 (sys.last_date - new_date))) 100000)
    last_date := new_date }

/-- `DistortRipple` (lines 379-453): the state of the filter after the call, and
the output picture (`none` when a copy left its buffers). -/
def DistortRipple (h : Host) (sys : vout_sys_t) (new_date : Int) (inpic outpic : picture_t) :
    vout_sys_t × Option picture_t :=
  let sys1 := rippleClock h sys new_date
  (sys1, ripplePlanes h sys1.f_angle inpic inpic.i_planes.toNat 0 outpic)

/-! ## The loops, over any table of offsets and any transform of a plane -/

/-- The line loop of either transform, over a table `offs` of offsets, with `k`
lines left to do and `i` the next one (a device of the proofs: `waveLines` and
`rippleLines` are instances, `waveLines_eq` and `rippleLines_eq`). -/
def linesFrom (black : UInt8) (src : List UInt8) (in_lb out_lb step : Int) (offs : Int → Int) :
    Nat → Int → Cursor → Option Cursor
  | 0, _, c => some c
  | k + 1, i, c =>
    (distortLine black src in_lb out_lb step (offs i) c).bind
      (linesFrom black src in_lb out_lb step offs k (i + 1))

/-- The plane loop of either transform, over a transform `F` of one plane, with
`k` planes left to do and `i` the next one (a device of the proofs: `wavePlanes`
and `ripplePlanes` are instances, `wavePlanes_eq` and `ripplePlanes_eq`). -/
def planesFrom (F : Nat → plane_t → plane_t → Option plane_t) (inpic : picture_t) :
    Nat → Nat → picture_t → Option picture_t
  | 0, _, outpic => some outpic
  | k + 1, i, outpic =>
    (inpic.planes[i]?).bind fun inp =>
      (outpic.planes[i]?).bind fun outp =>
        (F i inp outp).bind fun outp1 =>
          planesFrom F inpic k (i + 1) { outpic with planes := outpic.planes.set i outp1 }

/-! ## Calls in sequence -/

/-- The phase after each call of a sequence of calls of `DistortRipple`. -/
def ripplePhases (h : Host) : vout_sys_t → List (Int × picture_t × picture_t) → List ℚ
  | _, [] => []
  | sys, (t, inpic, outpic) :: rest =>
    (DistortRipple h sys t inpic outpic).1.f_angle ::
      ripplePhases h (DistortRipple h sys t inpic outpic).1 rest

/-! ## A platform and pictures for examples -/

/-- A platform for examples: exact arithmetic (no rounding), the luma plane at
index 0, and a square wave of period 6 in place of the sine. -/
def exactHost : Host where
  Y_PLANE := 0
  fl := fun x => x
  sin := fun x => if Int.fmod ⌊x⌋ 6 < 3 then 1 else -1

/-- A plane of ten lines of one byte: line `i` is the byte `i`. -/
def tenLines : plane_t := ⟨[0, 1, 2, 3, 4, 5, 6, 7, 8, 9], 10, 1⟩

/-- An output plane of the same geometry, every byte `0xEE`. -/
def tenBlank : plane_t :=
  ⟨[0xEE, 0xEE, 0xEE, 0xEE, 0xEE, 0xEE, 0xEE, 0xEE, 0xEE, 0xEE], 10, 1⟩

/-- A picture of one plane, `tenLines`. -/
def tenPicture : picture_t := ⟨1, [tenLines]⟩

/-- An output picture of one plane, `tenBlank`. -/
def tenBlankPicture : picture_t := ⟨1, [tenBlank]⟩

/-! ## Creation and initialisation (lines 131-226) -/

/-- What `vout_Create` reports through `intf_ErrMsg`. -/
inductive Message where
  /-- the message of line 139, the allocation failed -/
  | allocation_failed
  /-- the message of lines 161-162, no valid distort mode provided -/
  | no_valid_mode
deriving DecidableEq, Repr

/-- The scan of lines 146-149 over the characters of a C string (those before
its terminator): the characters are passed until a `':'` is met, and what is
left starts at that `':'`, or is empty. -/
def skipToColon : List Char → List Char
  | [] => []
  | c :: rest => if c ≠ ':' then skipToColon rest else c :: rest

/-- The outcome of `vout_Create`: the value returned, the state once allocated,
and the messages sent to `intf_ErrMsg`. -/
structure Created where
  ret : Int
  p_sys : Option vout_sys_t
  messages : List Message
deriving DecidableEq, Repr

/-- `vout_Create` (lines 131-167).  `malloc_ok` says whether `malloc` returned
memory, `fresh` is what that memory holds, and `psz_method` is the string
`main_GetPszVariable( VOUT_FILTER_VAR, "" )` returned.  `strcmp` is 0 when the
two strings have the same characters. -/
def vout_Create (malloc_ok : Bool) (fresh : vout_sys_t) (psz_method : List Char) : Created :=
  if !malloc_ok then ⟨1, none, [Message.allocation_failed]⟩
  else
    let psz_method := skipToColon psz_method
    if psz_method = String.toList ":wave" then
      ⟨0, some { fresh with i_mode := DISTORT_MODE_WAVE }, []⟩
    else if psz_method = String.toList ":ripple" then
      ⟨0, some { fresh with i_mode := DISTORT_MODE_RIPPLE }, []⟩
    else
      ⟨0, some { fresh with i_mode := DISTORT_MODE_WAVE }, [Message.no_valid_mode]⟩

/-- `vout_Init` (lines 172-226), as far as the state of the filter goes:
the value returned and the state.  `chroma_ok` says whether `render.i_chroma`
is one of the five formats of the switch of line 181, `spawned` whether
`vout_CreateThread` returned a thread (line 211); the two early returns leave
the state as it was, otherwise lines 222-223 reset the phase and the date. -/
def vout_Init (chroma_ok spawned : Bool) (sys : vout_sys_t) : Int × vout_sys_t :=
  if !chroma_ok then (0, sys)
  else if !spawned then (0, sys)
  else (0, { sys with f_angle := 0, last_date := 0 })

/-! ## Display (lines 273-305) -/

/-- One round of the loop of line 278: what `vout_CreatePicture` returned (`none`
is `NULL`) and the two flags of `p_vout` as they stand at that round. -/
structure Poll where
  p_outpic : Option picture_t
  b_die : Bool
  b_error : Bool
deriving DecidableEq, Repr

/-- What `vout_Display` does to the outside, in order. -/
inductive Event where
  /-- `msleep( VOUT_OUTMEM_SLEEP )`, line 285 -/
  | msleep
  /-- `vout_DatePicture` of line 288, with the picture and the date -/
  | date (p_outpic : picture_t) (t : Int)
  /-- `vout_DisplayPicture` of line 304, with the picture as the transform left
  it (`none` when a copy left its buffers) -/
  | display (p_outpic : Option picture_t)
deriving DecidableEq, Repr

/-- The outcome of `vout_Display`: the state of the filter, what was done to the
outside, and whether the call has returned (it has not when the rounds given
are all spent in the loop of line 278). -/
structure Displayed where
  sys : vout_sys_t
  events : List Event
  returned : Bool
deriving DecidableEq, Repr

/-- The switch of lines 290-302 on the picture obtained. -/
def transform (h : Host) (sys : vout_sys_t) (new_date : Int) (p_pic p_outpic : picture_t) :
    vout_sys_t × Option picture_t :=
  if sys.i_mode = DISTORT_MODE_WAVE then DistortWave h sys new_date p_pic p_outpic
  else if sys.i_mode = DISTORT_MODE_RIPPLE then DistortRipple h sys new_date p_pic p_outpic
  else (sys, some p_outpic)

/-- `vout_Display` (lines 273-305) over the rounds `polls` of its loop.
`date_now` is what the `mdate()` of line 288 returned, `new_date` what the one
of the transform returned. -/
def vout_Display (h : Host) (sys : vout_sys_t) (p_pic : picture_t) (date_now new_date : Int) :
    List Poll → Displayed
  | [] => ⟨sys, [], false⟩
  | poll :: rest =>
    match poll.p_outpic with
    | none =>
      if poll.b_die || poll.b_error then ⟨sys, [], true⟩
      else
        let later := vout_Display h sys p_pic date_now new_date rest
        { later with events := Event.msleep :: later.events }
    | some p_outpic =>
      let done := transform h sys new_date p_pic p_outpic
      ⟨done.1, [Event.date p_outpic (date_now + 50000), Event.display done.2], true⟩

/-- Whether an event is a delivery to the downstream output. -/
def Event.isDisplay : Event → Bool
  | Event.display _ => true
  | _ => false

/-- Whether an event is the dating of a picture. -/
def Event.isDate : Event → Bool
  | Event.date _ _ => true
  | _ => false

/-! ## A platform and a picture for the wave scenario -/

/-- A platform for the wave scenario: exact arithmetic, the luma plane at index
0, and a sine that takes the value -0.959 at 5 (the sine of 5 is -0.95892...)
and is the square wave of `exactHost` elsewhere. -/
def sampleHost : Host where
  Y_PLANE := 0
  fl := fun x => x
  sin := fun x => if x = 5 then -959 / 1000 else exactHost.sin x

/-- A plane of ten lines of a hundred bytes, every byte `0xFF`. -/
def whitePlane : plane_t := ⟨List.replicate 1000 0xFF, 1000, 100⟩

/-- An output plane of the same geometry, every byte `0xEE`. -/
def greyPlane : plane_t := ⟨List.replicate 1000 0xEE, 1000, 100⟩

/-- The picture of the wave scenario: one plane, `whitePlane`. -/
def whitePicture : picture_t := ⟨1, [whitePlane]⟩

/-- An output picture for the wave scenario: one plane, `greyPlane`. -/
def greyPicture : picture_t := ⟨1, [greyPlane]⟩

/-! ## What a transform leaves of the geometry -/

/-- Plane `b1` is plane `b` rewritten from plane `a` with the fill byte `black`:
it has the geometry of `a` (length of a line, size, number of lines, length of
the buffer); its bytes past the last line are those of `b`; and every byte of
every one of its lines, byte `j` of line `k` being at `k * i_line_bytes + j`, is
a byte of `a` or the fill byte. -/
def Rewritten (black : UInt8) (a b b1 : plane_t) : Prop :=
  b1.i_line_bytes = a.i_line_bytes ∧ b1.i_bytes = a.i_bytes ∧
  i_num_lines b1 = i_num_lines a ∧ b1.p_data.length = a.p_data.length ∧
  (∀ x : Nat, i_num_lines a * a.i_line_bytes ≤ (x : Int) → b1.p_data[x]? = b.p_data[x]?) ∧
  (∀ k j : Nat, (k : Int) < i_num_lines a → (j : Int) < a.i_line_bytes →
    ∃ v, b1.p_data[((k : Int) * a.i_line_bytes + j).toNat]? = some v ∧
      (v = black ∨ v ∈ a.p_data))

/-! ## Arithmetic of the platform -/

theorem toInt_abs_le (x : ℚ) (q : Int) (hq : 0 ≤ q)
    (hlo : -((q : ℚ) + 1) < x) (hhi : x < (q : ℚ) + 1) : |toInt x| ≤ q := by
  unfold toInt
  split_ifs with h0
  · have h1 : ⌊x⌋ < q + 1 := by
      rw [Int.floor_lt]; push_cast; exact hhi
    have h2 : 0 ≤ ⌊x⌋ := Int.floor_nonneg.mpr h0
    rw [abs_le]; constructor <;> omega
  · have h1 : -(q + 1) < ⌈x⌉ := by
      rw [Int.lt_ceil]; push_cast; exact hlo
    have h2 : ⌈x⌉ ≤ 0 := by
      rw [Int.ceil_le]; push_cast; linarith
    rw [abs_le]; constructor <;> omega

namespace Host.Sound

theorem fl_int {h : Host} (hs : h.Sound) (m : Int) (hm : |m| ≤ 2 ^ 53) : h.fl (m : ℚ) = m := by
  have := hs.dyadic m 0 hm (by norm_num)
  simpa using this

theorem ofInt_eq {h : Host} (hs : h.Sound) (m : Int) (hm : |m| ≤ 2 ^ 53) : h.ofInt m = m :=
  hs.fl_int m hm

/-- Rounding keeps a value below a `double` it is below. -/
theorem fl_le {h : Host} (hs : h.Sound) (x : ℚ) (m : Int) (k : Nat) (hm : |m| ≤ 2 ^ 53) (hk : k ≤ 64)
    (hx : x ≤ (m : ℚ) / 2 ^ k) : h.fl x ≤ (m : ℚ) / 2 ^ k := by
  have := hs.mono _ _ hx
  rwa [hs.dyadic m k hm hk] at this

theorem le_fl {h : Host} (hs : h.Sound) (x : ℚ) (m : Int) (k : Nat) (hm : |m| ≤ 2 ^ 53) (hk : k ≤ 64)
    (hx : (m : ℚ) / 2 ^ k ≤ x) : (m : ℚ) / 2 ^ k ≤ h.fl x := by
  have := hs.mono _ _ hx
  rwa [hs.dyadic m k hm hk] at this

/-- Rounding keeps a value within an integer bound that is a `double`. -/
theorem abs_fl_le {h : Host} (hs : h.Sound) (x : ℚ) (m : Int) (hm0 : 0 ≤ m) (hm : m ≤ 2 ^ 53)
    (hx : |x| ≤ (m : ℚ)) : |h.fl x| ≤ (m : ℚ) := by
  rw [abs_le] at hx ⊢
  constructor
  · have := hs.le_fl x (-m) 0 (by rw [abs_neg, abs_of_nonneg hm0]; exact hm) (by norm_num)
      (by push_cast; simpa using hx.1)
    simpa using this
  · have := hs.fl_le x m 0 (by rw [abs_of_nonneg hm0]; exact hm) (by norm_num)
      (by simpa using hx.2)
    simpa using this

/-- Rounding keeps a value within a bound `m / 32` that is a `double`. -/
theorem abs_fl_le_32 {h : Host} (hs : h.Sound) (x : ℚ) (m : Int) (hm0 : 0 ≤ m) (hm : m ≤ 2 ^ 53)
    (hx : |x| ≤ (m : ℚ) / 32) : |h.fl x| ≤ (m : ℚ) / 32 := by
  rw [abs_le] at hx ⊢
  constructor
  · have := hs.le_fl x (-m) 5 (by rw [abs_neg, abs_of_nonneg hm0]; exact hm) (by norm_num)
      (by push_cast; norm_num; linarith [hx.1])
    push_cast at this; norm_num at this; linarith
  · have := hs.fl_le x m 5 (by rw [abs_of_nonneg hm0]; exact hm) (by norm_num)
      (by norm_num; linarith [hx.2])
    norm_num at this; linarith

end Host.Sound


/-! ## Bounds on the offsets -/

/-- An exact quotient by a positive constant `c ≤ 20` is below the next multiple
of `1/32` under the next integer. -/
theorem rat_div_le_grid (lb c : Int) (hc : 0 < c) (hc20 : c ≤ 20) :
    (lb : ℚ) / c ≤ ((32 * (lb / c) + 31 : Int) : ℚ) / 32 := by
  have hcq : (0 : ℚ) < c := by exact_mod_cast hc
  have h1 : lb = c * (lb / c) + lb % c := (Int.ediv_add_emod lb c).symm
  have h2 : lb % c < c := Int.emod_lt_of_pos lb hc
  have h3 : 0 ≤ lb % c := Int.emod_nonneg lb (by omega)
  have h4 : (lb : ℚ) = c * ((lb / c : Int) : ℚ) + ((lb % c : Int) : ℚ) := by exact_mod_cast h1
  have h5 : ((lb % c : Int) : ℚ) ≤ c - 1 := by
    have : lb % c ≤ c - 1 := by omega
    exact_mod_cast this
  have h6 : (c : ℚ) ≤ 20 := by exact_mod_cast hc20
  rw [div_le_div_iff₀ hcq (by norm_num)]
  push_cast
  rw [h4]
  nlinarith

/-- The product of `(double)lb` and a sine stays within `lb`. -/
theorem abs_mul_sin_le (h : Host) (hs : h.Sound) (lb : Int) (s : ℚ) (hlb : 0 ≤ lb)
    (hlb31 : lb < 2 ^ 31) (hsin : |s| ≤ 1) : |h.mul (h.ofInt lb) s| ≤ (lb : ℚ) := by
  unfold Host.mul
  rw [hs.ofInt_eq lb (by rw [abs_of_nonneg hlb]; omega)]
  apply hs.abs_fl_le _ lb hlb (by omega)
  rw [abs_mul]
  have hq : (0 : ℚ) ≤ lb := by exact_mod_cast hlb
  rw [abs_of_nonneg hq]
  nlinarith [abs_nonneg s]

/-- A `double` within `lb`, divided by a constant `c ≤ 20` and converted to
`int`, is within `lb / c`. -/
theorem abs_toInt_div_le (h : Host) (hs : h.Sound) (x : ℚ) (lb c : Int) (hlb : 0 ≤ lb)
    (hlb31 : lb < 2 ^ 31) (hc : 0 < c) (hc20 : c ≤ 20) (hx : |x| ≤ (lb : ℚ)) :
    |toInt (h.div x (c : ℚ))| ≤ lb / c := by
  have hcq : (0 : ℚ) < c := by exact_mod_cast hc
  have hq0 : 0 ≤ lb / c := Int.ediv_nonneg hlb (by omega)
  have hqle : lb / c ≤ lb := Int.ediv_le_self _ hlb
  have hgrid := rat_div_le_grid lb c hc hc20
  have h1 : |x / (c : ℚ)| ≤ ((32 * (lb / c) + 31 : Int) : ℚ) / 32 := by
    rw [abs_div, abs_of_pos hcq]
    exact le_trans (div_le_div_of_nonneg_right hx hcq.le) hgrid
  have h2 := hs.abs_fl_le_32 _ _ (by omega) (by omega) h1
  have h3 : ((32 * (lb / c) + 31 : Int) : ℚ) / 32 < ((lb / c : Int) : ℚ) + 1 := by
    push_cast; linarith
  rw [abs_le] at h2
  apply toInt_abs_le _ _ hq0
  · unfold Host.div; linarith [h2.1]
  · unfold Host.div; linarith [h2.2]

theorem waveOffset_abs_le (h : Host) (hs : h.Sound) (f_angle : ℚ) (lb n i_line : Int)
    (hlb : 0 ≤ lb) (hlb31 : lb < 2 ^ 31) :
    |waveOffset h f_angle lb n i_line| ≤ lb / 20 := by
  unfold waveOffset
  have := abs_toInt_div_le h hs _ lb 20 hlb hlb31 (by norm_num) (by norm_num)
    (abs_mul_sin_le h hs lb _ hlb hlb31 (hs.sin_le
      (h.add f_angle (h.div (h.mul 10 (h.ofInt i_line)) (h.ofInt n)))))
  simpa using this

theorem rippleOffset_abs_le (h : Host) (hs : h.Sound) (f_angle : ℚ) (lb n f i_line : Int)
    (hlb : 0 ≤ lb) (hlb31 : lb < 2 ^ 31) (hn : 1 ≤ n) (hn31 : n < 2 ^ 31)
    (hbytes : lb * n < 2 ^ 31) (hf0 : 0 ≤ f) (hf : f ≤ i_line) (hi : i_line < n) :
    |rippleOffset h f_angle lb n f i_line| ≤ lb / 8 := by
  unfold rippleOffset
  generalize hd : i_line - f = d
  have hd0 : 0 ≤ d := by omega
  have hdn : d ≤ n := by omega
  have hnq : (0 : ℚ) < n := by exact_mod_cast (by omega : 0 < n)
  have hdq0 : (0 : ℚ) ≤ d := by exact_mod_cast hd0
  have hdqn : (d : ℚ) ≤ n := by exact_mod_cast hdn
  have hlbq : (0 : ℚ) ≤ lb := by exact_mod_cast hlb
  have hprod : lb * d ≤ lb * n := Int.mul_le_mul_of_nonneg_left hdn hlb
  have hprodq : (lb : ℚ) * d ≤ lb * n := by exact_mod_cast hprod
  have h2 := abs_mul_sin_le h hs lb _ hlb hlb31 (hs.sin_le
    (h.add f_angle (h.div (h.mul 2 (h.ofInt i_line)) (h.ofInt (1 + i_line - f)))))
  generalize h.mul (h.ofInt lb) _ = x2 at h2 ⊢
  have h3 : |h.mul x2 (h.ofInt d)| ≤ ((lb * d : Int) : ℚ) := by
    unfold Host.mul
    rw [hs.ofInt_eq d (by rw [abs_of_nonneg hd0]; omega)]
    apply hs.abs_fl_le _ _ (Int.mul_nonneg hlb hd0) (by omega)
    rw [abs_mul, abs_of_nonneg hdq0]
    push_cast
    exact mul_le_mul_of_nonneg_right h2 hdq0
  generalize h.mul x2 _ = x3 at h3 ⊢
  have h4 : |h.div x3 (h.ofInt n)| ≤ (lb : ℚ) := by
    unfold Host.div
    rw [hs.ofInt_eq n (by rw [abs_of_nonneg (by omega : (0 : Int) ≤ n)]; omega)]
    apply hs.abs_fl_le _ _ hlb (by omega)
    rw [abs_div, abs_of_pos hnq, div_le_iff₀ hnq]
    push_cast at h3
    linarith
  have := abs_toInt_div_le h hs _ lb 8 hlb hlb31 (by norm_num) (by norm_num) h4
  simpa using this


/-! ## Memory operations, byte by byte -/

theorem splice_getElem (l mid : List UInt8) (d n x : Nat) (h : d + n ≤ l.length)
    (hmid : mid.length = n) :
    (l.take d ++ (mid ++ l.drop (d + n)))[x]? =
      if d ≤ x ∧ x < d + n then mid[x - d]? else l[x]? := by
  rcases Nat.lt_or_ge x d with h1 | h1
  · rw [List.getElem?_append_left (by simp; omega), List.getElem?_take, if_pos h1,
      if_neg (by omega)]
  · rw [List.getElem?_append_right (by simp; omega), List.length_take,
      Nat.min_eq_left (by omega)]
    rcases Nat.lt_or_ge x (d + n) with h2 | h2
    · rw [List.getElem?_append_left (by omega), if_pos ⟨h1, h2⟩]
    · rw [List.getElem?_append_right (by omega), List.getElem?_drop, if_neg (by omega)]
      congr 1; omega

theorem splice_length (l mid : List UInt8) (d n : Nat) (h : d + n ≤ l.length)
    (hmid : mid.length = n) : (l.take d ++ (mid ++ l.drop (d + n))).length = l.length := by
  simp only [List.length_append, List.length_take, List.length_drop]
  omega

/-- A copy within the buffers succeeds, keeps the length of the destination, and
changes the bytes of the destination range only. -/
theorem FAST_MEMCPY_spec (dst src : List UInt8) (d s n : Int) (hn : 0 ≤ n) (hd : 0 ≤ d)
    (hdn : d + n ≤ dst.length) (hs : 0 ≤ s) (hsn : s + n ≤ src.length) :
    ∃ r, FAST_MEMCPY dst d src s n = some r ∧ r.length = dst.length ∧
      ∀ x : Nat, r[x]? =
        if d ≤ (x : Int) ∧ (x : Int) < d + n then src[((x : Int) - d + s).toNat]? else dst[x]? := by
  refine ⟨_, if_pos ⟨hn, hd, hdn, hs, hsn⟩, ?_, ?_⟩
  · rw [show (d + n).toNat = d.toNat + n.toNat by omega]
    exact splice_length _ _ _ _ (by omega) (by simp; omega)
  · intro x
    rw [show (d + n).toNat = d.toNat + n.toNat by omega,
      splice_getElem _ _ _ _ _ (by omega) (by simp; omega)]
    by_cases hx : d ≤ (x : Int) ∧ (x : Int) < d + n
    · rw [if_pos hx, if_pos (by omega), List.getElem?_take, if_pos (by omega),
        List.getElem?_drop]
      congr 1; omega
    · rw [if_neg hx, if_neg (by omega)]

/-- A fill within the buffer succeeds, keeps its length, and changes the bytes
of the range only. -/
theorem memset_spec (dst : List UInt8) (d n : Int) (c : UInt8) (hn : 0 ≤ n) (hd : 0 ≤ d)
    (hdn : d + n ≤ dst.length) :
    ∃ r, memset dst d c n = some r ∧ r.length = dst.length ∧
      ∀ x : Nat, r[x]? = if d ≤ (x : Int) ∧ (x : Int) < d + n then some c else dst[x]? := by
  refine ⟨_, if_pos ⟨hn, hd, hdn⟩, ?_, ?_⟩
  · rw [show (d + n).toNat = d.toNat + n.toNat by omega]
    exact splice_length _ _ _ _ (by omega) (by simp)
  · intro x
    rw [show (d + n).toNat = d.toNat + n.toNat by omega,
      splice_getElem _ _ _ _ _ (by omega) (by simp)]
    by_cases hx : d ≤ (x : Int) ∧ (x : Int) < d + n
    · rw [if_pos hx, if_pos (by omega), List.getElem?_replicate, if_pos (by omega)]
    · rw [if_neg hx, if_neg (by omega)]


/-! ## One line, byte by byte -/

/-- One line of the loop body, when the offset is shorter than the line and the
line lies in both buffers: the call succeeds, both pointers advance, the buffer
keeps its length, the bytes outside the output line are untouched, and byte `j`
of the output line is byte `j - off` of the input line when that is a position
of the line, the fill byte when it is not. -/
theorem distortLine_spec (black : UInt8) (src : List UInt8) (L step off : Int) (c : Cursor)
    (hoff : |off| < L) (ha : 0 ≤ c.p_in) (ha2 : c.p_in + L ≤ src.length)
    (hb : 0 ≤ c.p_out) (hb2 : c.p_out + L ≤ c.out.length) :
    ∃ m, distortLine black src L L step off c = some ⟨c.p_in + step, c.p_out + L, m⟩ ∧
      m.length = c.out.length ∧
      ∀ x : Nat, m[x]? =
        if c.p_out ≤ (x : Int) ∧ (x : Int) < c.p_out + L then
          if 0 ≤ (x : Int) - c.p_out - off ∧ (x : Int) - c.p_out - off < L then
            src[(c.p_in + ((x : Int) - c.p_out) - off).toNat]?
          else some black
        else c.out[x]? := by
  rw [abs_lt] at hoff
  obtain ⟨hoff1, hoff2⟩ := hoff
  unfold distortLine
  rcases lt_trichotomy off 0 with hneg | hzero | hpos
  · rw [if_pos (by omega), if_pos hneg]
    obtain ⟨m1, e1, l1, g1⟩ := FAST_MEMCPY_spec c.out src c.p_out (c.p_in - off) (L + off)
      (by omega) hb (by omega) (by omega) (by omega)
    obtain ⟨m2, e2, l2, g2⟩ := memset_spec m1 (c.p_out + L + off) (-off) black
      (by omega) (by omega) (by omega)
    rw [e1, Option.some_bind]
    simp only []
    rw [e2, Option.some_bind]
    refine ⟨m2, rfl, by omega, ?_⟩
    intro x
    rw [g2 x, g1 x]
    by_cases hx : c.p_out ≤ (x : Int) ∧ (x : Int) < c.p_out + L
    · rw [if_pos hx]
      by_cases hx2 : (x : Int) < c.p_out + L + off
      · rw [if_neg (by omega), if_pos (by omega), if_pos (by omega)]
        congr 1; omega
      · rw [if_pos (by omega), if_neg (by omega)]
    · rw [if_neg hx, if_neg (by omega), if_neg (by omega)]
  · subst hzero
    rw [if_neg (by omega)]
    obtain ⟨m1, e1, l1, g1⟩ := FAST_MEMCPY_spec c.out src c.p_out c.p_in L
      (by omega) hb (by omega) (by omega) (by omega)
    rw [e1, Option.some_bind]
    refine ⟨m1, rfl, l1, ?_⟩
    intro x
    rw [g1 x]
    by_cases hx : c.p_out ≤ (x : Int) ∧ (x : Int) < c.p_out + L
    · rw [if_pos hx, if_pos hx, if_pos (by omega)]
      congr 1; omega
    · rw [if_neg hx, if_neg hx]
  · rw [if_pos (by omega), if_neg (by omega)]
    obtain ⟨m1, e1, l1, g1⟩ := FAST_MEMCPY_spec c.out src (c.p_out + off) c.p_in (L - off)
      (by omega) (by omega) (by omega) (by omega) (by omega)
    obtain ⟨m2, e2, l2, g2⟩ := memset_spec m1 c.p_out off black
      (by omega) (by omega) (by omega)
    rw [e1, Option.some_bind, e2, Option.some_bind]
    refine ⟨m2, rfl, by omega, ?_⟩
    intro x
    rw [g2 x, g1 x]
    by_cases hx : c.p_out ≤ (x : Int) ∧ (x : Int) < c.p_out + L
    · rw [if_pos hx]
      by_cases hx2 : (x : Int) < c.p_out + off
      · rw [if_pos (by omega), if_neg (by omega)]
      · rw [if_neg (by omega), if_pos (by omega), if_pos (by omega)]
        congr 1; omega
    · rw [if_neg hx, if_neg (by omega), if_neg (by omega)]


/-! ## The line loops -/

theorem waveLines_eq (h : Host) (f_angle : ℚ) (black : UInt8) (inp : plane_t) (out_lb n : Int)
    (k : Nat) : ∀ (i : Int) (c : Cursor),
    waveLines h f_angle black inp out_lb n k i c =
      linesFrom black inp.p_data inp.i_line_bytes out_lb inp.i_line_bytes
        (waveOffset h f_angle inp.i_line_bytes n) k i c := by
  induction k with
  | zero => intro i c; rfl
  | succ k ih =>
    intro i c
    simp only [waveLines, linesFrom]
    congr 1
    funext c1
    exact ih (i + 1) c1

theorem rippleLines_eq (h : Host) (f_angle : ℚ) (black : UInt8) (inp : plane_t)
    (out_lb n f : Int) (k : Nat) : ∀ (i : Int) (c : Cursor),
    rippleLines h f_angle black inp out_lb n f k i c =
      linesFrom black inp.p_data inp.i_line_bytes out_lb (-inp.i_line_bytes)
        (rippleOffset h f_angle inp.i_line_bytes n f) k i c := by
  induction k with
  | zero => intro i c; rfl
  | succ k ih =>
    intro i c
    simp only [rippleLines, linesFrom]
    congr 1
    funext c1
    exact ih (i + 1) c1

/-- The line loop, when every offset is shorter than the line and every line it
reads and writes lies in its buffer: the loop succeeds; after `k` lines the
input pointer has moved by `k` steps and the output pointer by `k` lines; the
bytes outside the `k` output lines are untouched; and byte `j` of the `t`-th
output line is byte `j - off` of the `t`-th input line read, or the fill byte. -/
theorem linesFrom_spec (black : UInt8) (src : List UInt8) (L step : Int) (offs : Int → Int)
    (hL : 0 < L) (k : Nat) : ∀ (i : Int) (c : Cursor),
    (∀ t : Nat, t < k → |offs (i + t)| < L) →
    (∀ t : Nat, t < k → 0 ≤ c.p_in + t * step ∧ c.p_in + t * step + L ≤ src.length) →
    0 ≤ c.p_out → c.p_out + k * L ≤ c.out.length →
    ∃ m, linesFrom black src L L step offs k i c =
        some ⟨c.p_in + k * step, c.p_out + k * L, m⟩ ∧
      m.length = c.out.length ∧
      (∀ x : Nat, ((x : Int) < c.p_out ∨ c.p_out + k * L ≤ (x : Int)) → m[x]? = c.out[x]?) ∧
      (∀ t j : Nat, t < k → (j : Int) < L →
        m[(c.p_out + t * L + j).toNat]? =
          if 0 ≤ (j : Int) - offs (i + t) ∧ (j : Int) - offs (i + t) < L then
            src[(c.p_in + t * step + j - offs (i + t)).toNat]?
          else some black) := by
  induction k with
  | zero =>
    intro i c _ _ _ _
    refine ⟨c.out, ?_, rfl, fun _ _ => rfl, fun t j ht _ => absurd ht (Nat.not_lt_zero t)⟩
    simp [linesFrom]
  | succ k ih =>
    intro i c hoff hin hb hb2
    have hkL : (0 : Int) ≤ k * L := Int.mul_nonneg (Int.ofNat_nonneg k) hL.le
    have hsucc : ((k + 1 : Nat) : Int) * L = k * L + L := by push_cast; ring
    rw [hsucc] at hb2
    have hin0 := hin 0 (Nat.succ_pos k)
    have hoff0 := hoff 0 (Nat.succ_pos k)
    simp only [Nat.cast_zero, zero_mul, add_zero] at hin0 hoff0
    obtain ⟨m1, e1, l1, g1⟩ := distortLine_spec black src L step (offs i) c hoff0 hin0.1
      hin0.2 hb (by omega)
    obtain ⟨m, e, l, gout, gin⟩ := ih (i + 1) ⟨c.p_in + step, c.p_out + L, m1⟩
      (fun t ht => by
        have := hoff (t + 1) (by omega)
        rwa [show i + ((t + 1 : Nat) : Int) = i + 1 + t by push_cast; ring] at this)
      (fun t ht => by
        have := hin (t + 1) (by omega)
        rwa [show c.p_in + ((t + 1 : Nat) : Int) * step = c.p_in + step + t * step by
          push_cast; ring] at this)
      (by show 0 ≤ c.p_out + L; omega)
      (by show c.p_out + L + k * L ≤ (m1.length : Int); omega)
    simp only [] at e l gout gin
    refine ⟨m, ?_, by omega, ?_, ?_⟩
    · simp only [linesFrom]
      rw [e1, Option.some_bind, e]
      simp only [Option.some.injEq, Cursor.mk.injEq, and_true]
      constructor <;> (push_cast; ring)
    · intro x hx
      rw [gout x (by omega), g1 x, if_neg (by omega)]
    · intro t j ht hj
      have hj0 : (0 : Int) ≤ j := Int.ofNat_nonneg j
      rcases t with _ | t
      · simp only [Nat.cast_zero, zero_mul, add_zero]
        have hx0 : 0 ≤ c.p_out + j := by omega
        rw [gout _ (Or.inl (by rw [Int.toNat_of_nonneg hx0]; omega)), g1,
          Int.toNat_of_nonneg hx0, if_pos (by omega)]
        rw [show c.p_out + (j : Int) - c.p_out = j by ring]
      · have := gin t j (by omega) hj
        rw [show c.p_out + ((t + 1 : Nat) : Int) * L + j = c.p_out + L + t * L + j by
            push_cast; ring,
          show i + ((t + 1 : Nat) : Int) = i + 1 + t by push_cast; ring,
          show c.p_in + ((t + 1 : Nat) : Int) * step = c.p_in + step + t * step by
            push_cast; ring]
        exact this

/-! ## Geometry of a plane -/

namespace Matching

theorem num_lines_eq {inp outp : plane_t} (g : Matching inp outp) :
    i_num_lines inp = inp.i_bytes / inp.i_line_bytes :=
  Int.tdiv_eq_ediv g.bytes_nonneg g.line_pos.le

theorem num_lines_nonneg {inp outp : plane_t} (g : Matching inp outp) : 0 ≤ i_num_lines inp := by
  rw [g.num_lines_eq]; exact Int.ediv_nonneg g.bytes_nonneg g.line_pos.le

/-- The lines of a plane fit in its buffer. -/
theorem lines_le_bytes {inp outp : plane_t} (g : Matching inp outp) :
    i_num_lines inp * inp.i_line_bytes ≤ inp.i_bytes := by
  rw [g.num_lines_eq]; exact Int.ediv_mul_le _ g.line_pos.ne'

theorem num_lines_le_bytes {inp outp : plane_t} (g : Matching inp outp) : i_num_lines inp ≤ inp.i_bytes := by
  have h1 := g.lines_le_bytes
  have h2 := g.num_lines_nonneg
  have h3 := g.line_pos
  nlinarith

/-- Line `t` of the plane, for `t` below `m ≤ i_num_lines`, lies in the buffer. -/
theorem line_in_bytes {inp outp : plane_t} (g : Matching inp outp) (t m : Int) (ht : t < m)
    (hm : m ≤ i_num_lines inp) : t * inp.i_line_bytes + inp.i_line_bytes ≤ inp.i_bytes := by
  have h1 := g.lines_le_bytes
  have h3 := g.line_pos
  have h4 : (t + 1) * inp.i_line_bytes ≤ i_num_lines inp * inp.i_line_bytes :=
    Int.mul_le_mul_of_nonneg_right (by omega) h3.le
  linarith

end Matching


/-! ## A whole plane -/

/-- The wave on one plane, when every line's offset is shorter than the line:
the transform succeeds and keeps the size of the buffer; bytes past the last
line are untouched; byte `j` of output line `t` is byte `j - offset` of input
line `t`, or the fill byte. -/
theorem wavePlane_spec (h : Host) (f_angle : ℚ) (i_index : Int) (inp outp : plane_t)
    (g : Matching inp outp)
    (hoff : ∀ t : Nat, (t : Int) < i_num_lines inp →
      |waveOffset h f_angle inp.i_line_bytes (i_num_lines inp) t| < inp.i_line_bytes) :
    ∃ m, wavePlane h f_angle i_index inp outp = some { outp with p_data := m } ∧
      m.length = outp.p_data.length ∧
      (∀ x : Nat, i_num_lines inp * inp.i_line_bytes ≤ (x : Int) → m[x]? = outp.p_data[x]?) ∧
      (∀ t j : Nat, (t : Int) < i_num_lines inp → (j : Int) < inp.i_line_bytes →
        m[((t : Int) * inp.i_line_bytes + j).toNat]? =
          if 0 ≤ (j : Int) - waveOffset h f_angle inp.i_line_bytes (i_num_lines inp) t ∧
              (j : Int) - waveOffset h f_angle inp.i_line_bytes (i_num_lines inp) t
                < inp.i_line_bytes then
            inp.p_data[((t : Int) * inp.i_line_bytes + j
              - waveOffset h f_angle inp.i_line_bytes (i_num_lines inp) t).toNat]?
          else some (black_pixel h i_index)) := by
  have hn0 := g.num_lines_nonneg
  have hnL := g.lines_le_bytes
  have hk : ((i_num_lines inp).toNat : Int) = i_num_lines inp := Int.toNat_of_nonneg hn0
  obtain ⟨m, e, l, gout, gin⟩ := linesFrom_spec (black_pixel h i_index) inp.p_data
    inp.i_line_bytes inp.i_line_bytes (waveOffset h f_angle inp.i_line_bytes (i_num_lines inp))
    g.line_pos (i_num_lines inp).toNat 0 ⟨0, 0, outp.p_data⟩
    (fun t ht => by rw [zero_add]; exact hoff t (by omega))
    (fun t ht => by
      have h1 := g.line_in_bytes t (i_num_lines inp) (by omega) le_rfl
      have h2 : (0 : Int) ≤ t * inp.i_line_bytes :=
        Int.mul_nonneg (Int.ofNat_nonneg t) g.line_pos.le
      rw [g.in_len]
      constructor <;> simp only [zero_add] <;> omega)
    le_rfl
    (by rw [hk]; simp only [zero_add]; rw [g.out_len, g.out_bytes]; exact hnL)
  simp only [zero_add, hk] at e l gout gin
  refine ⟨m, ?_, l, ?_, ?_⟩
  · unfold wavePlane
    rw [if_neg g.line_pos.ne', g.out_line, waveLines_eq, e]
    rfl
  · intro x hx
    exact gout x (Or.inr hx)
  · intro t j ht hj
    exact gin t j (by omega) hj


/-- On a line count whose quadruple is an `int`, `i_first_line` is four fifths
of it, rounded down. -/
theorem firstLine_eq (n : Int) (hn : 0 ≤ n) (h4 : n * 4 < 2 ^ 31) :
    firstLine n = n * 4 / 5 := by
  unfold firstLine wrap32
  have : (n * 4 + 2 ^ 31) % 2 ^ 32 - 2 ^ 31 = n * 4 := by omega
  rw [this]
  exact Int.tdiv_eq_ediv (by omega) (by norm_num)

/-- The line loop of the ripple on one plane after `k` lines of the band, when
the offsets of these lines are shorter than the line: the loop has succeeded;
the output pointer is at line `i_first_line + k` and the input pointer at line
`i_first_line - k`; the lines above `i_first_line` are those of the input; the
bytes from line `i_first_line + k` on are untouched; byte `j` of output line
`i_first_line + t` is byte `j - offset` of input line `i_first_line - t`, or
the fill byte. -/
theorem rippleCursor_spec (h : Host) (f_angle : ℚ) (i_index : Int) (inp outp : plane_t)
    (g : Matching inp outp) (h4 : i_num_lines inp * 4 < 2 ^ 31) (k : Nat)
    (hkn : firstLine (i_num_lines inp) + k ≤ i_num_lines inp)
    (hoff : ∀ t : Nat, t < k →
      |rippleOffset h f_angle inp.i_line_bytes (i_num_lines inp) (firstLine (i_num_lines inp))
        (firstLine (i_num_lines inp) + t)| < inp.i_line_bytes) :
    ∃ m, rippleCursor h f_angle i_index inp outp k =
        some ⟨(firstLine (i_num_lines inp) - k) * inp.i_line_bytes,
          (firstLine (i_num_lines inp) + k) * inp.i_line_bytes, m⟩ ∧
      m.length = outp.p_data.length ∧
      (∀ x : Nat, (x : Int) < firstLine (i_num_lines inp) * inp.i_line_bytes →
        m[x]? = inp.p_data[x]?) ∧
      (∀ x : Nat, (firstLine (i_num_lines inp) + k) * inp.i_line_bytes ≤ (x : Int) →
        m[x]? = outp.p_data[x]?) ∧
      (∀ t j : Nat, t < k → (j : Int) < inp.i_line_bytes →
        m[((firstLine (i_num_lines inp) + t) * inp.i_line_bytes + j).toNat]? =
          if 0 ≤ (j : Int) - rippleOffset h f_angle inp.i_line_bytes (i_num_lines inp)
                (firstLine (i_num_lines inp)) (firstLine (i_num_lines inp) + t) ∧
              (j : Int) - rippleOffset h f_angle inp.i_line_bytes (i_num_lines inp)
                (firstLine (i_num_lines inp)) (firstLine (i_num_lines inp) + t)
                < inp.i_line_bytes then
            inp.p_data[((firstLine (i_num_lines inp) - t) * inp.i_line_bytes + j
              - rippleOffset h f_angle inp.i_line_bytes (i_num_lines inp)
                (firstLine (i_num_lines inp)) (firstLine (i_num_lines inp) + t)).toNat]?
          else some (black_pixel h i_index)) := by
  have hn0 := g.num_lines_nonneg
  have hnL := g.lines_le_bytes
  have hL := g.line_pos
  have hfe := firstLine_eq (i_num_lines inp) hn0 h4
  unfold rippleCursor
  simp only [g.out_line, rippleLines_eq]
  generalize hn : i_num_lines inp = n at *
  generalize hf : firstLine n = f at *
  generalize hLe : inp.i_line_bytes = L at *
  have hf0 : 0 ≤ f := by omega
  have hfn : f ≤ n := by omega
  have hfL0 : 0 ≤ f * L := Int.mul_nonneg hf0 hL.le
  have hfL : f * L ≤ n * L := Int.mul_le_mul_of_nonneg_right hfn hL.le
  have hfkL : (f + k) * L ≤ n * L := Int.mul_le_mul_of_nonneg_right hkn hL.le
  have hlen_out : (outp.p_data.length : Int) = inp.i_bytes := by rw [g.out_len, g.out_bytes]
  obtain ⟨m0, e0, l0, g0⟩ := FAST_MEMCPY_spec outp.p_data inp.p_data 0 0 (f * L)
    hfL0 le_rfl (by omega) le_rfl (by rw [g.in_len]; omega)
  have e1 : f * L + (k : Int) * L = (f + k) * L := by ring
  obtain ⟨m, e, l, gout, gin⟩ := linesFrom_spec (black_pixel h i_index) inp.p_data
    L (-L) (rippleOffset h f_angle L n f) hL k f ⟨f * L, f * L, m0⟩
    (fun t ht => hoff t ht)
    (fun t ht => by
      have e2 : f * L + (t : Int) * -L = (f - t) * L := by ring
      have h1 : (0 : Int) ≤ (f - t) * L := Int.mul_nonneg (by omega) hL.le
      have h2 : (f - t + 1) * L ≤ n * L := Int.mul_le_mul_of_nonneg_right (by omega) hL.le
      have h3 : (f - t + 1) * L = (f - t) * L + L := by ring
      rw [g.in_len]
      simp only [e2]
      constructor <;> omega)
    hfL0
    (by simp only [e1]; omega)
  simp only [] at e l gout gin
  rw [e1] at e gout
  rw [show f * L + (k : Int) * -L = (f - k) * L by ring] at e
  refine ⟨m, ?_, by omega, ?_, ?_, ?_⟩
  · rw [e0, Option.some_bind, e]
  · intro x hx
    rw [gout x (Or.inl hx), g0 x, if_pos ⟨by omega, by omega⟩]
    simp
  · intro x hx
    have hkL : (0 : Int) ≤ k * L := Int.mul_nonneg (Int.ofNat_nonneg k) hL.le
    rw [gout x (Or.inr hx), g0 x, if_neg (by omega)]
  · intro t j ht hj
    have := gin t j ht hj
    rw [show f * L + (t : Int) * L = (f + t) * L by ring,
      show f * L + (t : Int) * -L = (f - t) * L by ring] at this
    exact this

/-- The ripple on one plane, when every offset of the band is shorter than the
line: the transform succeeds and keeps the size of the buffer; the lines above
`i_first_line` are those of the input; bytes past the last line are untouched;
byte `j` of output line `i_first_line + t` is byte `j - offset` of input line
`i_first_line - t`, or the fill byte. -/
theorem ripplePlane_spec (h : Host) (f_angle : ℚ) (i_index : Int) (inp outp : plane_t)
    (g : Matching inp outp) (h4 : i_num_lines inp * 4 < 2 ^ 31)
    (hoff : ∀ t : Nat, firstLine (i_num_lines inp) + t < i_num_lines inp →
      |rippleOffset h f_angle inp.i_line_bytes (i_num_lines inp) (firstLine (i_num_lines inp))
        (firstLine (i_num_lines inp) + t)| < inp.i_line_bytes) :
    ∃ m, ripplePlane h f_angle i_index inp outp = some { outp with p_data := m } ∧
      m.length = outp.p_data.length ∧
      (∀ x : Nat, (x : Int) < firstLine (i_num_lines inp) * inp.i_line_bytes →
        m[x]? = inp.p_data[x]?) ∧
      (∀ x : Nat, i_num_lines inp * inp.i_line_bytes ≤ (x : Int) → m[x]? = outp.p_data[x]?) ∧
      (∀ t j : Nat, firstLine (i_num_lines inp) + t < i_num_lines inp →
        (j : Int) < inp.i_line_bytes →
        m[((firstLine (i_num_lines inp) + t) * inp.i_line_bytes + j).toNat]? =
          if 0 ≤ (j : Int) - rippleOffset h f_angle inp.i_line_bytes (i_num_lines inp)
                (firstLine (i_num_lines inp)) (firstLine (i_num_lines inp) + t) ∧
              (j : Int) - rippleOffset h f_angle inp.i_line_bytes (i_num_lines inp)
                (firstLine (i_num_lines inp)) (firstLine (i_num_lines inp) + t)
                < inp.i_line_bytes then
            inp.p_data[((firstLine (i_num_lines inp) - t) * inp.i_line_bytes + j
              - rippleOffset h f_angle inp.i_line_bytes (i_num_lines inp)
                (firstLine (i_num_lines inp)) (firstLine (i_num_lines inp) + t)).toNat]?
          else some (black_pixel h i_index)) := by
  have hn0 := g.num_lines_nonneg
  have hfe := firstLine_eq (i_num_lines inp) hn0 h4
  have hk : ((i_num_lines inp - firstLine (i_num_lines inp)).toNat : Int)
      = i_num_lines inp - firstLine (i_num_lines inp) := Int.toNat_of_nonneg (by omega)
  obtain ⟨m, e, l, gtop, gout, gin⟩ := rippleCursor_spec h f_angle i_index inp outp g h4
    (i_num_lines inp - firstLine (i_num_lines inp)).toNat (by omega)
    (fun t ht => hoff t (by omega))
  refine ⟨m, ?_, l, gtop, ?_, ?_⟩
  · unfold ripplePlane
    rw [if_neg g.line_pos.ne', e]
    rfl
  · intro x hx
    apply gout x
    rw [hk]
    rw [show firstLine (i_num_lines inp) + (i_num_lines inp - firstLine (i_num_lines inp))
      = i_num_lines inp by ring]
    exact hx
  · intro t j ht hj
    exact gin t j (by omega) hj

/-! ## Planes on a sound platform -/

theorem exactHost_sound : exactHost.Sound where
  mono := fun _ _ hxy => hxy
  idem := fun _ => rfl
  dyadic := fun _ _ _ _ => rfl
  sin_le := fun x => by
    show |if Int.fmod ⌊x⌋ 6 < 3 then (1 : ℚ) else -1| ≤ 1
    split_ifs <;> norm_num

/-- On a sound platform every offset of the wave is shorter than the line. -/
theorem waveOffset_lt (h : Host) (hs : h.Sound) (f_angle : ℚ) (inp outp : plane_t)
    (g : Matching inp outp) (n i : Int) :
    |waveOffset h f_angle inp.i_line_bytes n i| < inp.i_line_bytes := by
  have h1 := waveOffset_abs_le h hs f_angle inp.i_line_bytes n i g.line_pos.le g.line_int
  have h2 := g.line_pos
  omega

/-- On a sound platform every offset of the band of the ripple is shorter than
the line. -/
theorem rippleOffset_lt (h : Host) (hs : h.Sound) (f_angle : ℚ) (inp outp : plane_t)
    (g : Matching inp outp) (h4 : i_num_lines inp * 4 < 2 ^ 31) (t : Nat)
    (ht : firstLine (i_num_lines inp) + t < i_num_lines inp) :
    |rippleOffset h f_angle inp.i_line_bytes (i_num_lines inp) (firstLine (i_num_lines inp))
      (firstLine (i_num_lines inp) + t)| < inp.i_line_bytes := by
  have hn0 := g.num_lines_nonneg
  have hfe := firstLine_eq (i_num_lines inp) hn0 h4
  have hnb := g.num_lines_le_bytes
  have hb := g.bytes_int
  have hL := g.line_pos
  have h1 := rippleOffset_abs_le h hs f_angle inp.i_line_bytes (i_num_lines inp)
    (firstLine (i_num_lines inp)) (firstLine (i_num_lines inp) + t) hL.le g.line_int
    (by omega) (by omega)
    (by have := g.lines_le_bytes; rw [mul_comm]; omega)
    (by omega) (by omega) ht
  omega


/-! ## The plane loops -/

theorem wavePlanes_eq (h : Host) (f_angle : ℚ) (inpic : picture_t) (k : Nat) :
    ∀ (i : Nat) (outpic : picture_t),
    wavePlanes h f_angle inpic k i outpic =
      planesFrom (fun p => wavePlane h f_angle p) inpic k i outpic := by
  induction k with
  | zero => intro i outpic; rfl
  | succ k ih =>
    intro i outpic
    simp only [wavePlanes, planesFrom, ih]

theorem ripplePlanes_eq (h : Host) (f_angle : ℚ) (inpic : picture_t) (k : Nat) :
    ∀ (i : Nat) (outpic : picture_t),
    ripplePlanes h f_angle inpic k i outpic =
      planesFrom (fun p => ripplePlane h f_angle p) inpic k i outpic := by
  induction k with
  | zero => intro i outpic; rfl
  | succ k ih =>
    intro i outpic
    simp only [ripplePlanes, planesFrom, ih]

/-- The plane loop, when the transform of every plane succeeds: the loop
succeeds, keeps the number of planes, leaves the other planes alone, and plane
`p` of the result is the transform of plane `p` of the input into plane `p` of
the output picture it was given. -/
theorem planesFrom_spec (F : Nat → plane_t → plane_t → Option plane_t) (inpic : picture_t)
    (k : Nat) : ∀ (i : Nat) (outpic : picture_t),
    (∀ p, i ≤ p → p < i + k → ∃ a b r,
      inpic.planes[p]? = some a ∧ outpic.planes[p]? = some b ∧ F p a b = some r) →
    ∃ outpic1, planesFrom F inpic k i outpic = some outpic1 ∧
      outpic1.i_planes = outpic.i_planes ∧
      outpic1.planes.length = outpic.planes.length ∧
      (∀ p, p < i ∨ i + k ≤ p → outpic1.planes[p]? = outpic.planes[p]?) ∧
      (∀ p a b, i ≤ p → p < i + k → inpic.planes[p]? = some a → outpic.planes[p]? = some b →
        outpic1.planes[p]? = F p a b) := by
  induction k with
  | zero =>
    intro i outpic _
    exact ⟨outpic, rfl, rfl, rfl, fun _ _ => rfl, fun p a b h1 h2 => by omega⟩
  | succ k ih =>
    intro i outpic H
    obtain ⟨a0, b0, r0, ea, eb, er⟩ := H i le_rfl (by omega)
    have hilt : i < outpic.planes.length := by
      obtain ⟨hlt, -⟩ := List.getElem?_eq_some_iff.mp eb
      exact hlt
    obtain ⟨outpic1, e, hp, hl, hframe, hplane⟩ := ih (i + 1)
      { outpic with planes := outpic.planes.set i r0 }
      (fun p hp1 hp2 => by
        obtain ⟨a, b, r, e1, e2, e3⟩ := H p (by omega) (by omega)
        exact ⟨a, b, r, e1, by
          show (outpic.planes.set i r0)[p]? = some b
          rw [List.getElem?_set_ne (by omega)]; exact e2, e3⟩)
    simp only [List.length_set] at hl
    refine ⟨outpic1, ?_, hp, hl, ?_, ?_⟩
    · simp only [planesFrom]
      rw [ea, Option.some_bind, eb, Option.some_bind, er, Option.some_bind, e]
    · intro p hp1
      rw [hframe p (by omega)]
      show (outpic.planes.set i r0)[p]? = _
      rw [List.getElem?_set_ne (by omega)]
    · intro p a b hp1 hp2 e1 e2
      rcases Nat.eq_or_lt_of_le hp1 with heq | hlt
      · subst heq
        rw [hframe i (Or.inl (by omega))]
        show (outpic.planes.set i r0)[i]? = _
        rw [List.getElem?_set_self hilt]
        rw [ea] at e1; rw [eb] at e2
        cases e1; cases e2
        exact er.symm
      · exact hplane p a b (by omega) (by omega) e1 (by
          show (outpic.planes.set i r0)[p]? = some b
          rw [List.getElem?_set_ne (by omega)]; exact e2)

/-! ## A whole picture -/

/-- A picture through `DistortWave` on a sound platform: the call succeeds,
keeps the number of planes, and plane `p` of the result is `wavePlane` of plane
`p` of the input, at the phase the clock reached. -/
theorem DistortWave_planes (h : Host) (hs : h.Sound) (sys : vout_sys_t) (now : Int)
    (inpic outpic : picture_t) (g : MatchingPictures inpic outpic) :
    ∃ outpic1, (DistortWave h sys now inpic outpic).2 = some outpic1 ∧
      outpic1.i_planes = outpic.i_planes ∧
      outpic1.planes.length = outpic.planes.length ∧
      (∀ p : Nat, inpic.i_planes ≤ (p : Int) → outpic1.planes[p]? = outpic.planes[p]?) ∧
      (∀ (p : Nat) (a b : plane_t), (p : Int) < inpic.i_planes → inpic.planes[p]? = some a →
        outpic.planes[p]? = some b →
        outpic1.planes[p]? = wavePlane h (waveClock h sys now).f_angle p a b) := by
  have hk : (inpic.i_planes.toNat : Int) = inpic.i_planes := Int.toNat_of_nonneg g.planes_nonneg
  have hin := g.in_planes
  have hout := g.out_planes
  obtain ⟨outpic1, e, hp, hl, hframe, hplane⟩ := planesFrom_spec
    (fun p => wavePlane h (waveClock h sys now).f_angle p) inpic inpic.i_planes.toNat 0 outpic
    (fun p _ hp2 => by
      have ha : p < inpic.planes.length := by omega
      have hb : p < outpic.planes.length := by omega
      have gm := g.plane p _ _ (by omega) (List.getElem?_eq_getElem ha)
        (List.getElem?_eq_getElem hb)
      obtain ⟨m, em, -⟩ := wavePlane_spec h (waveClock h sys now).f_angle p _ _ gm
        (fun t _ => waveOffset_lt h hs _ _ _ gm _ _)
      exact ⟨_, _, _, List.getElem?_eq_getElem ha, List.getElem?_eq_getElem hb, em⟩)
  refine ⟨outpic1, ?_, hp, hl, ?_, ?_⟩
  · show wavePlanes h _ inpic _ 0 outpic = _
    rw [wavePlanes_eq]; exact e
  · intro p hp1
    exact hframe p (Or.inr (by omega))
  · intro p a b hp1 ea eb
    exact hplane p a b (Nat.zero_le p) (by omega) ea eb

/-- A picture through `DistortRipple` on a sound platform: the call succeeds,
keeps the number of planes, and plane `p` of the result is `ripplePlane` of
plane `p` of the input, at the phase the clock reached. -/
theorem DistortRipple_planes (h : Host) (hs : h.Sound) (sys : vout_sys_t) (now : Int)
    (inpic outpic : picture_t) (g : MatchingPictures inpic outpic)
    (h4 : ∀ (p : Nat) (a : plane_t), (p : Int) < inpic.i_planes → inpic.planes[p]? = some a →
      i_num_lines a * 4 < 2 ^ 31) :
    ∃ outpic1, (DistortRipple h sys now inpic outpic).2 = some outpic1 ∧
      outpic1.i_planes = outpic.i_planes ∧
      outpic1.planes.length = outpic.planes.length ∧
      (∀ p : Nat, inpic.i_planes ≤ (p : Int) → outpic1.planes[p]? = outpic.planes[p]?) ∧
      (∀ (p : Nat) (a b : plane_t), (p : Int) < inpic.i_planes → inpic.planes[p]? = some a →
        outpic.planes[p]? = some b →
        outpic1.planes[p]? = ripplePlane h (rippleClock h sys now).f_angle p a b) := by
  have hk : (inpic.i_planes.toNat : Int) = inpic.i_planes := Int.toNat_of_nonneg g.planes_nonneg
  have hin := g.in_planes
  have hout := g.out_planes
  obtain ⟨outpic1, e, hp, hl, hframe, hplane⟩ := planesFrom_spec
    (fun p => ripplePlane h (rippleClock h sys now).f_angle p) inpic inpic.i_planes.toNat 0
    outpic
    (fun p _ hp2 => by
      have ha : p < inpic.planes.length := by omega
      have hb : p < outpic.planes.length := by omega
      have gm := g.plane p _ _ (by omega) (List.getElem?_eq_getElem ha)
        (List.getElem?_eq_getElem hb)
      have h4p := h4 p _ (by omega) (List.getElem?_eq_getElem ha)
      obtain ⟨m, em, -⟩ := ripplePlane_spec h (rippleClock h sys now).f_angle p _ _ gm h4p
        (fun t ht => rippleOffset_lt h hs _ _ _ gm h4p t ht)
      exact ⟨_, _, _, List.getElem?_eq_getElem ha, List.getElem?_eq_getElem hb, em⟩)
  refine ⟨outpic1, ?_, hp, hl, ?_, ?_⟩
  · show ripplePlanes h _ inpic _ 0 outpic = _
    rw [ripplePlanes_eq]; exact e
  · intro p hp1
    exact hframe p (Or.inr (by omega))
  · intro p a b hp1 ea eb
    exact hplane p a b (Nat.zero_le p) (by omega) ea eb

/-! ## The example pictures -/

theorem tenLines_matching : Matching tenLines tenBlank where
  line_pos := by decide
  line_int := by decide
  bytes_nonneg := by decide
  bytes_int := by decide
  in_len := by decide
  out_line := by decide
  out_bytes := by decide
  out_len := by decide

theorem tenPicture_matching : MatchingPictures tenPicture tenBlankPicture where
  planes_nonneg := by decide
  in_planes := by decide
  out_planes := by decide
  plane := fun p a b hp ha hb => by
    have hp0 : p = 0 := by
      have : (p : Int) < 1 := hp
      omega
    subst hp0
    cases ha; cases hb
    exact tenLines_matching

theorem tenPicture_lines (p : Nat) (a : plane_t) (hp : (p : Int) < tenPicture.i_planes)
    (ha : tenPicture.planes[p]? = some a) : i_num_lines a * 4 < 2 ^ 31 := by
  have hp0 : p = 0 := by
    have : (p : Int) < 1 := hp
    omega
  subst hp0
  cases ha
  decide


/-! ## The ripple on the example picture -/

/-- Lines of one byte are never shifted: every offset of the band is 0. -/
theorem tenLines_offset (f_angle : ℚ) (k : Nat) (hk : (8 : Int) + k < 10) :
    rippleOffset exactHost f_angle 1 10 8 (8 + k) = 0 := by
  have := rippleOffset_abs_le exactHost exactHost_sound f_angle 1 10 8 (8 + k) (by decide)
    (by decide) (by decide) (by decide) (by decide) (by decide) (by omega) hk
  have h0 : (1 : Int) / 8 = 0 := by decide
  rw [h0] at this
  exact abs_nonpos_iff.mp this

/-- The ripple of the example plane, at any phase: the last two lines are input
lines 8 and 7. -/
theorem tenLines_ripple (f_angle : ℚ) :
    ripplePlane exactHost f_angle 0 tenLines tenBlank =
      some ⟨[0, 1, 2, 3, 4, 5, 6, 7, 8, 7], 10, 1⟩ := by
  obtain ⟨m, em, l, gtop, -, gin⟩ := ripplePlane_spec exactHost f_angle 0 tenLines tenBlank
    tenLines_matching (by decide)
    (fun t ht => rippleOffset_lt exactHost exactHost_sound _ _ _ tenLines_matching
      (by decide) t ht)
  rw [show i_num_lines tenLines = 10 by decide, show firstLine 10 = 8 by decide,
    show tenLines.i_line_bytes = 1 by decide] at gtop gin
  have hm : m = [0, 1, 2, 3, 4, 5, 6, 7, 8, 7] := by
    apply List.ext_getElem?
    intro x
    rcases Nat.lt_or_ge x 8 with h8 | h8
    · rw [gtop x (by omega)]
      interval_cases x <;> rfl
    · rcases Nat.lt_or_ge x 10 with h10 | h10
      · have hx := gin (x - 8) 0 (by omega) (by decide)
        rw [tenLines_offset f_angle (x - 8) (by omega)] at hx
        have hx8 : x = 8 ∨ x = 9 := by omega
        rcases hx8 with rfl | rfl
        · exact hx
        · exact hx
      · have l10 : m.length = 10 := l
        rw [List.getElem?_eq_none (by omega), List.getElem?_eq_none (by simp; omega)]
  rw [em, hm]
  rfl

/-- The ripple of the example picture, in any state and at any date. -/
theorem tenPicture_ripple (sys : vout_sys_t) (now : Int) :
    (DistortRipple exactHost sys now tenPicture tenBlankPicture).2 =
      some ⟨1, [⟨[0, 1, 2, 3, 4, 5, 6, 7, 8, 7], 10, 1⟩]⟩ := by
  obtain ⟨outpic1, e, hp, hl, -, hplane⟩ := DistortRipple_planes exactHost exactHost_sound sys
    now tenPicture tenBlankPicture tenPicture_matching tenPicture_lines
  have h0 : outpic1.planes[0]? =
      ripplePlane exactHost (rippleClock exactHost sys now).f_angle 0 tenLines tenBlank :=
    hplane 0 tenLines tenBlank (by decide) rfl rfl
  rw [tenLines_ripple] at h0
  rw [e]
  obtain ⟨n, planes⟩ := outpic1
  simp only at hp hl h0
  have hn : n = 1 := hp
  subst hn
  match planes, hl, h0 with
  | [b], _, h0 =>
    simp only [List.getElem?_cons_zero, Option.some.injEq] at h0
    rw [h0]

/-! ## The clocks -/

/-- The difference of two dates of the range of `mtime_t`, none negative, is
not changed by the reduction to 64 bits. -/
theorem wrap64_sub (a b : Int) (ha : 0 ≤ a) (ha63 : a < 2 ^ 63) (hb : 0 ≤ b)
    (hb63 : b < 2 ^ 63) : wrap64 (a - b) = a - b := by
  unfold wrap64
  omega

theorem Host.Sound.fl_nonpos {h : Host} (hs : h.Sound) (x : ℚ) (hx : x ≤ 0) : h.fl x ≤ 0 := by
  have := hs.fl_le x 0 0 (by norm_num) (by norm_num) (by simpa using hx)
  simpa using this

/-- On a sound platform the clock of the ripple does not move the phase back
when the date has not gone back. -/
theorem rippleClock_mono (h : Host) (hs : h.Sound) (sys : vout_sys_t) (now : Int)
    (hphase : h.fl sys.f_angle = sys.f_angle) (hlast : 0 ≤ sys.last_date)
    (hnow : sys.last_date ≤ now) (hnow63 : now < 2 ^ 63) :
    sys.f_angle ≤ (rippleClock h sys now).f_angle := by
  show sys.f_angle ≤ h.fl (sys.f_angle - h.fl (h.fl ((wrap64 (sys.last_date - now) : Int) : ℚ) / 100000))
  rw [wrap64_sub sys.last_date now hlast (by omega) (by omega) hnow63]
  have h1 : ((sys.last_date - now : Int) : ℚ) ≤ 0 := by exact_mod_cast (by omega : sys.last_date - now ≤ 0)
  have h2 := hs.fl_nonpos _ h1
  have h3 := hs.fl_nonpos (h.fl ((sys.last_date - now : Int) : ℚ) / 100000)
    (div_nonpos_of_nonpos_of_nonneg h2 (by norm_num))
  have h4 := hs.mono sys.f_angle
    (sys.f_angle - h.fl (h.fl ((sys.last_date - now : Int) : ℚ) / 100000)) (by linarith)
  rwa [hphase] at h4

/-- Along calls of `DistortRipple` at strictly increasing dates, on a sound
platform, the phase never decreases. -/
theorem ripplePhases_chain (h : Host) (hs : h.Sound)
    (calls : List (Int × picture_t × picture_t)) : ∀ sys : vout_sys_t,
    h.fl sys.f_angle = sys.f_angle → 0 ≤ sys.last_date →
    (∀ c ∈ calls, c.1 < 2 ^ 63) →
    List.Chain (· < ·) sys.last_date (calls.map (·.1)) →
    List.Chain (· ≤ ·) sys.f_angle (ripplePhases h sys calls) := by
  induction calls with
  | nil => intro sys _ _ _ _; exact List.Chain.nil
  | cons c rest ih =>
    intro sys hphase hlast h63 hchain
    obtain ⟨t, inpic, outpic⟩ := c
    simp only [List.map_cons, List.chain_cons] at hchain
    have ht63 : t < 2 ^ 63 := h63 (t, inpic, outpic) (List.mem_cons_self _ _)
    simp only [ripplePhases, List.chain_cons]
    refine ⟨rippleClock_mono h hs sys t hphase hlast hchain.1.le ht63, ?_⟩
    exact ih (rippleClock h sys t) (hs.idem _) (by show 0 ≤ t; omega)
      (fun c hc => h63 c (List.mem_cons_of_mem _ hc)) hchain.2

/-! ## Creation, initialisation and display -/

/-- The scan of `vout_Create` leaves the suffix that starts at the first `':'`. -/
theorem skipToColon_eq (s : List Char) :
    skipToColon s = s.dropWhile (fun c => decide (c ≠ ':')) := by
  induction s with
  | nil => rfl
  | cons c rest ih =>
    by_cases hc : c = ':'
    · simp [skipToColon, List.dropWhile, hc]
    · simp [skipToColon, List.dropWhile, hc, ih]

/-- In exact arithmetic the clock of the wave adds the elapsed time over
200000. -/
theorem waveClock_exact (h : Host) (hfl : ∀ x, h.fl x = x) (sys : vout_sys_t) (now : Int)
    (hlast : 0 ≤ sys.last_date) (hlast63 : sys.last_date < 2 ^ 63) (hnow : 0 ≤ now)
    (hnow63 : now < 2 ^ 63) :
    (waveClock h sys now).f_angle = sys.f_angle + ((now - sys.last_date : Int) : ℚ) / 200000 := by
  unfold waveClock
  simp only [Host.add, Host.div, Host.ofInt, hfl,
    wrap64_sub now sys.last_date hnow hnow63 hlast hlast63]

/-- In exact arithmetic the clock of the ripple adds the elapsed time over
100000. -/
theorem rippleClock_exact (h : Host) (hfl : ∀ x, h.fl x = x) (sys : vout_sys_t) (now : Int)
    (hlast : 0 ≤ sys.last_date) (hlast63 : sys.last_date < 2 ^ 63) (hnow : 0 ≤ now)
    (hnow63 : now < 2 ^ 63) :
    (rippleClock h sys now).f_angle = sys.f_angle + ((now - sys.last_date : Int) : ℚ) / 100000 := by
  unfold rippleClock
  simp only [Host.sub, Host.div, Host.ofInt, hfl,
    wrap64_sub sys.last_date now hlast hlast63 hnow hnow63]
  push_cast
  ring

/-- A round in which no picture is obtained and no flag is set adds a sleep in
front of what the later rounds do. -/
theorem vout_Display_wait (h : Host) (sys : vout_sys_t) (p_pic : picture_t)
    (date_now new_date : Int) (w : Poll) (rest : List Poll) (h1 : w.p_outpic = none)
    (h2 : w.b_die = false) (h3 : w.b_error = false) :
    vout_Display h sys p_pic date_now new_date (w :: rest) =
      ⟨(vout_Display h sys p_pic date_now new_date rest).sys,
        Event.msleep :: (vout_Display h sys p_pic date_now new_date rest).events,
        (vout_Display h sys p_pic date_now new_date rest).returned⟩ := by
  simp only [vout_Display, h1, h2, h3]
  rfl

/-- The rounds in which no picture is obtained and no flag is set only add
sleeps in front of what the later rounds do. -/
theorem vout_Display_waits (h : Host) (sys : vout_sys_t) (p_pic : picture_t)
    (date_now new_date : Int) (waits rest : List Poll)
    (hw : ∀ w ∈ waits, w.p_outpic = none ∧ w.b_die = false ∧ w.b_error = false) :
    vout_Display h sys p_pic date_now new_date (waits ++ rest) =
      ⟨(vout_Display h sys p_pic date_now new_date rest).sys,
        List.replicate waits.length Event.msleep ++
          (vout_Display h sys p_pic date_now new_date rest).events,
        (vout_Display h sys p_pic date_now new_date rest).returned⟩ := by
  induction waits with
  | nil => rfl
  | cons w ws ih =>
    obtain ⟨h1, h2, h3⟩ := hw w (List.mem_cons_self _ _)
    have ih1 := ih (fun x hx => hw x (List.mem_cons_of_mem _ hx))
    rw [List.cons_append, vout_Display_wait h sys p_pic date_now new_date w (ws ++ rest) h1 h2 h3,
      ih1]
    rfl

/-- While no picture is obtained nothing is dated, transformed or delivered. -/
theorem vout_Display_none (h : Host) (sys : vout_sys_t) (p_pic : picture_t)
    (date_now new_date : Int) (polls : List Poll)
    (hnone : ∀ w ∈ polls, w.p_outpic = none) :
    (vout_Display h sys p_pic date_now new_date polls).sys = sys ∧
      ∀ e ∈ (vout_Display h sys p_pic date_now new_date polls).events, e = Event.msleep := by
  induction polls with
  | nil => exact ⟨rfl, fun e he => absurd he (List.not_mem_nil e)⟩
  | cons w ws ih =>
    have h1 := hnone w (List.mem_cons_self _ _)
    obtain ⟨ih1, ih2⟩ := ih (fun x hx => hnone x (List.mem_cons_of_mem _ hx))
    simp only [vout_Display, h1]
    split_ifs
    · exact ⟨rfl, fun e he => absurd he (List.not_mem_nil e)⟩
    · refine ⟨ih1, fun e he => ?_⟩
      rcases List.mem_cons.mp he with rfl | he1
      · rfl
      · exact ih2 e he1

/-- A call delivers at most one picture. -/
theorem vout_Display_once (h : Host) (sys : vout_sys_t) (p_pic : picture_t)
    (date_now new_date : Int) (polls : List Poll) :
    (vout_Display h sys p_pic date_now new_date polls).events.countP Event.isDisplay ≤ 1 := by
  induction polls with
  | nil => simp [vout_Display]
  | cons w ws ih =>
    cases hp : w.p_outpic with
    | none =>
      simp only [vout_Display, hp]
      split_ifs
      · simp
      · simpa [List.countP_cons, Event.isDisplay] using ih
    | some p_outpic =>
      simp [vout_Display, hp, List.countP_cons, Event.isDisplay, Event.isDate]

/-! ## The ripple stays within a fortieth of the line -/

/-- Rounding keeps a value within a bound `m / 2^k` that is a `double`. -/
theorem Host.Sound.abs_fl_le_dyadic {h : Host} (hs : h.Sound) (x : ℚ) (m : Int) (k : Nat)
    (hm0 : 0 ≤ m) (hm : m ≤ 2 ^ 53) (hk : k ≤ 64) (hx : |x| ≤ (m : ℚ) / 2 ^ k) :
    |h.fl x| ≤ (m : ℚ) / 2 ^ k := by
  rw [abs_le] at hx ⊢
  constructor
  · have := hs.le_fl x (-m) k (by rw [abs_neg, abs_of_nonneg hm0]; exact hm) hk
      (by push_cast; rw [neg_div]; exact hx.1)
    push_cast at this
    rw [neg_div] at this
    exact this
  · exact hs.fl_le x m k (by rw [abs_of_nonneg hm0]; exact hm) hk hx.2

/-- Rounding leaves 0 alone. -/
theorem Host.Sound.fl_zero {h : Host} (hs : h.Sound) : h.fl 0 = 0 := by
  have := hs.fl_int 0 (by norm_num)
  simpa using this

/-- The offset of the first line of the band is 0, whatever the phase. -/
theorem rippleOffset_first (h : Host) (hs : h.Sound) (f_angle : ℚ) (lb n f : Int) :
    rippleOffset h f_angle lb n f f = 0 := by
  unfold rippleOffset
  simp only [sub_self, Host.mul, Host.div, Host.ofInt, Int.cast_zero, hs.fl_zero, mul_zero,
    zero_div]
  simp [toInt]

/-- On a sound platform the offsets of the band of the ripple stay within a
fortieth of the line: the ramp `(i - f) / n` is below a fifth. -/
theorem rippleOffset_abs_le_40 (h : Host) (hs : h.Sound) (f_angle : ℚ) (lb n i_line : Int)
    (hlb : 0 ≤ lb) (hlb31 : lb < 2 ^ 31) (hn : 1 ≤ n) (hn4 : n * 4 < 2 ^ 31)
    (hbytes : lb * n < 2 ^ 31) (hf : firstLine n ≤ i_line) (hi : i_line < n) :
    |rippleOffset h f_angle lb n (firstLine n) i_line| ≤ lb / 40 := by
  have hfe := firstLine_eq n (by omega) hn4
  unfold rippleOffset
  generalize hd : i_line - firstLine n = d
  have hd0 : 0 ≤ d := by omega
  have hd5 : 5 * d ≤ n := by omega
  have hdn : d ≤ n := by omega
  have hnq : (0 : ℚ) < n := by exact_mod_cast (by omega : 0 < n)
  have hdq0 : (0 : ℚ) ≤ d := by exact_mod_cast hd0
  have hdq5 : 5 * (d : ℚ) ≤ n := by exact_mod_cast hd5
  have hlbq : (0 : ℚ) ≤ lb := by exact_mod_cast hlb
  have hprod : lb * d ≤ lb * n := Int.mul_le_mul_of_nonneg_left hdn hlb
  have h2 := abs_mul_sin_le h hs lb _ hlb hlb31 (hs.sin_le
    (h.add f_angle (h.div (h.mul 2 (h.ofInt i_line)) (h.ofInt (1 + i_line - firstLine n)))))
  generalize h.mul (h.ofInt lb) _ = x2 at h2 ⊢
  have h3 : |h.mul x2 (h.ofInt d)| ≤ ((lb * d : Int) : ℚ) := by
    unfold Host.mul
    rw [hs.ofInt_eq d (by rw [abs_of_nonneg hd0]; omega)]
    apply hs.abs_fl_le _ _ (Int.mul_nonneg hlb hd0) (by omega)
    rw [abs_mul, abs_of_nonneg hdq0]
    push_cast
    exact mul_le_mul_of_nonneg_right h2 hdq0
  generalize h.mul x2 _ = x3 at h3 ⊢
  generalize hm : (32 * lb + 4) / 5 = m
  have hm0 : 0 ≤ m := by omega
  have hm53 : m ≤ 2 ^ 53 := by omega
  have hm5 : 32 * lb ≤ 5 * m := by omega
  have hm5q : 32 * (lb : ℚ) ≤ 5 * m := by exact_mod_cast hm5
  have h4 : |h.div x3 (h.ofInt n)| ≤ (m : ℚ) / 32 := by
    unfold Host.div
    rw [hs.ofInt_eq n (by rw [abs_of_nonneg (by omega : (0 : Int) ≤ n)]; omega)]
    apply hs.abs_fl_le_32 _ _ hm0 hm53
    rw [abs_div, abs_of_pos hnq, div_le_iff₀ hnq]
    push_cast at h3
    have h5 : (lb : ℚ) * d * 5 ≤ lb * n := by nlinarith
    have h6 : (lb : ℚ) * n * 32 ≤ 5 * m * n := by nlinarith
    have h7 : (m : ℚ) / 32 * n = m * n / 32 := by ring
    rw [h7, le_div_iff₀ (by norm_num)]
    nlinarith
  generalize h.div x3 _ = x4 at h4 ⊢
  have h5 : |h.div x4 8| ≤ (m : ℚ) / 2 ^ 8 := by
    unfold Host.div
    apply hs.abs_fl_le_dyadic _ _ 8 hm0 hm53 (by norm_num)
    rw [abs_div, abs_of_pos (by norm_num : (0 : ℚ) < 8)]
    have : (m : ℚ) / 2 ^ 8 = m / 32 / 8 := by norm_num; ring
    rw [this]
    exact div_le_div_of_nonneg_right h4 (by norm_num)
  have hq : m < 256 * (lb / 40 + 1) := by omega
  have hqq : (m : ℚ) < 256 * (((lb / 40 : Int) : ℚ) + 1) := by exact_mod_cast hq
  have h6 : (m : ℚ) / 2 ^ 8 < ((lb / 40 : Int) : ℚ) + 1 := by
    rw [div_lt_iff₀ (by norm_num)]
    norm_num
    linarith
  rw [abs_le] at h5
  apply toInt_abs_le _ _ (by omega)
  · linarith [h5.1]
  · linarith [h5.2]

/-! ## The wave scenario -/

/-- A negative `double` in `(-(q + 1), -q]` converts to `-q`. -/
theorem toInt_eq_neg (x : ℚ) (q : Int) (hq : 0 < q) (hlo : -((q : ℚ) + 1) < x)
    (hhi : x ≤ -(q : ℚ)) : toInt x = -q := by
  have hq0 : (0 : ℚ) < q := by exact_mod_cast hq
  unfold toInt
  rw [if_neg (by linarith), Int.ceil_eq_iff]
  push_cast
  constructor <;> linarith

/-- The sine of 5 lies between -0.96 and -0.95: it is minus the cosine of
`5 - 3π/2`, a number near 0.2876. -/
theorem real_sin_five : -24 / 25 ≤ Real.sin 5 ∧ Real.sin 5 ≤ -19 / 20 := by
  have hpi1 := Real.pi_gt_d4
  have hpi2 := Real.pi_lt_d4
  have e : Real.sin 5 = -Real.cos (5 - 3 * Real.pi / 2) := by
    have : (5 : ℝ) = (5 - 3 * Real.pi / 2) + Real.pi / 2 + Real.pi := by ring
    conv_lhs => rw [this]
    rw [Real.sin_add_pi, Real.sin_add_pi_div_two]
  generalize hy : 5 - 3 * Real.pi / 2 = y at e
  have hy1 : (0.2876 : ℝ) ≤ y := by rw [← hy]; norm_num at hpi1 hpi2 ⊢; linarith
  have hy2 : y ≤ (0.28775 : ℝ) := by rw [← hy]; norm_num at hpi1 hpi2 ⊢; linarith
  have hy0 : 0 ≤ y := by linarith
  have hb := Real.cos_bound (x := y) (by rw [abs_of_nonneg hy0]; linarith)
  rw [abs_of_nonneg hy0, abs_le] at hb
  have hsq1 : y ^ 2 ≤ 0.28775 ^ 2 := pow_le_pow_left₀ hy0 hy2 2
  have hsq2 : (0.2876 : ℝ) ^ 2 ≤ y ^ 2 := pow_le_pow_left₀ (by norm_num) hy1 2
  have h4 : y ^ 4 ≤ 0.28775 ^ 4 := pow_le_pow_left₀ hy0 hy2 4
  rw [e]
  constructor
  · norm_num at hsq1 hsq2 h4 ⊢; linarith [hb.1, hb.2]
  · norm_num at hsq1 hsq2 h4 ⊢; linarith [hb.1, hb.2]

/-- A sine of the C library that is within a hundredth of the sine at 5 lies
between -0.99 and -0.8 there. -/
theorem sin_five_range (h : Host) (hsin : |((h.sin 5 : ℚ) : ℝ) - Real.sin 5| ≤ 1 / 100) :
    -99 / 100 ≤ h.sin 5 ∧ h.sin 5 ≤ -4 / 5 := by
  obtain ⟨h1, h2⟩ := real_sin_five
  rw [abs_le] at hsin
  have hlo : ((-99 / 100 : ℚ) : ℝ) ≤ ((h.sin 5 : ℚ) : ℝ) := by push_cast; linarith [hsin.1]
  have hhi : ((h.sin 5 : ℚ) : ℝ) ≤ ((-4 / 5 : ℚ) : ℝ) := by push_cast; linarith [hsin.2]
  exact ⟨by exact_mod_cast hlo, by exact_mod_cast hhi⟩

/-- The offset of line 5 of ten lines of a hundred bytes at phase 0, on a sound
platform whose sine of 5 lies between -0.99 and -0.8, is -4. -/
theorem waveOffset_scenario (h : Host) (hs : h.Sound)
    (hsin : -99 / 100 ≤ h.sin 5 ∧ h.sin 5 ≤ -4 / 5) : waveOffset h 0 100 10 5 = -4 := by
  have e5 : h.fl 5 = 5 := by simpa using hs.fl_int 5 (by norm_num)
  have e10 : h.fl 10 = 10 := by simpa using hs.fl_int 10 (by norm_num)
  have e50 : h.fl 50 = 50 := by simpa using hs.fl_int 50 (by norm_num)
  have e100 : h.fl 100 = 100 := by simpa using hs.fl_int 100 (by norm_num)
  have earg : h.add 0 (h.div (h.mul 10 (h.ofInt 5)) (h.ofInt 10)) = 5 := by
    simp only [Host.add, Host.div, Host.mul, Host.ofInt, Int.cast_ofNat, e5, e10]
    norm_num [e50, e5]
  unfold waveOffset
  rw [earg]
  generalize h.sin 5 = s at hsin
  obtain ⟨hs1, hs2⟩ := hsin
  have hx1 : (-99 : ℚ) ≤ h.mul (h.ofInt 100) s := by
    have := hs.le_fl (100 * s) (-99) 0 (by norm_num) (by norm_num) (by norm_num; linarith)
    simp only [Host.mul, Host.ofInt, Int.cast_ofNat, e100]
    norm_num at this
    exact this
  have hx2 : h.mul (h.ofInt 100) s ≤ -80 := by
    have := hs.fl_le (100 * s) (-80) 0 (by norm_num) (by norm_num) (by norm_num; linarith)
    simp only [Host.mul, Host.ofInt, Int.cast_ofNat, e100]
    norm_num at this
    exact this
  generalize h.mul (h.ofInt 100) s = x at hx1 hx2
  have hy1 : (-159 / 32 : ℚ) ≤ h.div x 20 := by
    have := hs.le_fl (x / 20) (-159) 5 (by norm_num) (by norm_num) (by norm_num; linarith)
    norm_num at this
    show (-159 / 32 : ℚ) ≤ h.fl (x / 20)
    linarith
  have hy2 : h.div x 20 ≤ -4 := by
    have := hs.fl_le (x / 20) (-4) 0 (by norm_num) (by norm_num) (by norm_num; linarith)
    norm_num at this
    exact this
  have := toInt_eq_neg (h.div x 20) 4 (by norm_num) (by norm_num; linarith)
    (by norm_num; linarith)
  simpa using this

theorem sampleHost_sound : sampleHost.Sound where
  mono := fun _ _ hxy => hxy
  idem := fun _ => rfl
  dyadic := fun _ _ _ _ => rfl
  sin_le := fun x => by
    show |if x = 5 then (-959 / 1000 : ℚ) else exactHost.sin x| ≤ 1
    split_ifs
    · rw [abs_le]; constructor <;> norm_num
    · exact exactHost_sound.sin_le x

theorem sampleHost_sin : |((sampleHost.sin 5 : ℚ) : ℝ) - Real.sin 5| ≤ 1 / 100 := by
  have e : sampleHost.sin 5 = -959 / 1000 := by
    show (if (5 : ℚ) = 5 then (-959 / 1000 : ℚ) else exactHost.sin 5) = -959 / 1000
    rw [if_pos rfl]
  obtain ⟨h1, h2⟩ := real_sin_five
  rw [e, abs_le]
  push_cast
  constructor <;> linarith

theorem whitePlane_matching : Matching whitePlane greyPlane where
  line_pos := by decide
  line_int := by decide
  bytes_nonneg := by decide
  bytes_int := by decide
  in_len := by
    show ((List.replicate 1000 (0xFF : UInt8)).length : Int) = 1000
    rw [List.length_replicate]; rfl
  out_line := by decide
  out_bytes := by decide
  out_len := by
    show ((List.replicate 1000 (0xEE : UInt8)).length : Int) = 1000
    rw [List.length_replicate]; rfl

theorem whitePicture_matching : MatchingPictures whitePicture greyPicture where
  planes_nonneg := by decide
  in_planes := by decide
  out_planes := by decide
  plane := fun p a b hp ha hb => by
    have hp0 : p = 0 := by
      have : (p : Int) < 1 := hp
      omega
    subst hp0
    cases ha; cases hb
    exact whitePlane_matching

/-- Every byte of the white plane is `0xFF`. -/
theorem whitePlane_byte (x : Nat) (hx : x < 1000) : whitePlane.p_data[x]? = some 0xFF := by
  show (List.replicate 1000 (0xFF : UInt8))[x]? = some 0xFF
  rw [List.getElem?_replicate, if_pos hx]

/-! ## The geometry after a transform -/

/-- A position of a buffer holds one of its bytes. -/
theorem byte_of_buffer (l : List UInt8) (i : Int) (h0 : 0 ≤ i) (h1 : i < l.length) :
    ∃ v, l[i.toNat]? = some v ∧ v ∈ l := by
  have hlt : i.toNat < l.length := by omega
  exact ⟨l[i.toNat], List.getElem?_eq_getElem hlt, List.getElem_mem hlt⟩

theorem wavePlane_rewritten (h : Host) (f_angle : ℚ) (i_index : Int) (a b : plane_t)
    (g : Matching a b)
    (hoff : ∀ t : Nat, (t : Int) < i_num_lines a →
      |waveOffset h f_angle a.i_line_bytes (i_num_lines a) t| < a.i_line_bytes) :
    ∃ b1, wavePlane h f_angle i_index a b = some b1 ∧
      Rewritten (black_pixel h i_index) a b b1 := by
  obtain ⟨m, em, l, gout, gin⟩ := wavePlane_spec h f_angle i_index a b g hoff
  have hlen : (m.length : Int) = a.p_data.length := by
    rw [l, g.out_len, g.out_bytes, g.in_len]
  refine ⟨_, em, g.out_line, g.out_bytes, ?_, by exact_mod_cast hlen, gout, ?_⟩
  · show Int.tdiv b.i_bytes b.i_line_bytes = Int.tdiv a.i_bytes a.i_line_bytes
    rw [g.out_line, g.out_bytes]
  · intro k j hk hj
    have hj0 : (0 : Int) ≤ j := Int.ofNat_nonneg j
    have hk0 : (0 : Int) ≤ (k : Int) * a.i_line_bytes :=
      Int.mul_nonneg (Int.ofNat_nonneg k) g.line_pos.le
    have hkL := g.line_in_bytes k (i_num_lines a) hk le_rfl
    show ∃ v, m[((k : Int) * a.i_line_bytes + j).toNat]? = some v ∧ _
    rw [gin k j hk hj]
    split_ifs with hc
    · obtain ⟨v, e, hv⟩ := byte_of_buffer a.p_data
        ((k : Int) * a.i_line_bytes + j - waveOffset h f_angle a.i_line_bytes (i_num_lines a) k)
        (by omega) (by rw [g.in_len]; omega)
      exact ⟨v, e, Or.inr hv⟩
    · exact ⟨_, rfl, Or.inl rfl⟩

theorem ripplePlane_rewritten (h : Host) (f_angle : ℚ) (i_index : Int) (a b : plane_t)
    (g : Matching a b) (h4 : i_num_lines a * 4 < 2 ^ 31)
    (hoff : ∀ t : Nat, firstLine (i_num_lines a) + t < i_num_lines a →
      |rippleOffset h f_angle a.i_line_bytes (i_num_lines a) (firstLine (i_num_lines a))
        (firstLine (i_num_lines a) + t)| < a.i_line_bytes) :
    ∃ b1, ripplePlane h f_angle i_index a b = some b1 ∧
      Rewritten (black_pixel h i_index) a b b1 := by
  obtain ⟨m, em, l, gtop, gout, gin⟩ := ripplePlane_spec h f_angle i_index a b g h4 hoff
  have hn0 := g.num_lines_nonneg
  have hfe := firstLine_eq (i_num_lines a) hn0 h4
  have hL := g.line_pos
  have hlen : (m.length : Int) = a.p_data.length := by
    rw [l, g.out_len, g.out_bytes, g.in_len]
  refine ⟨_, em, g.out_line, g.out_bytes, ?_, by exact_mod_cast hlen, gout, ?_⟩
  · show Int.tdiv b.i_bytes b.i_line_bytes = Int.tdiv a.i_bytes a.i_line_bytes
    rw [g.out_line, g.out_bytes]
  · intro k j hk hj
    have hj0 : (0 : Int) ≤ j := Int.ofNat_nonneg j
    have hk0 : (0 : Int) ≤ (k : Int) * a.i_line_bytes :=
      Int.mul_nonneg (Int.ofNat_nonneg k) hL.le
    have hkL := g.line_in_bytes k (i_num_lines a) hk le_rfl
    show ∃ v, m[((k : Int) * a.i_line_bytes + j).toNat]? = some v ∧ _
    rcases lt_or_le (k : Int) (firstLine (i_num_lines a)) with hkf | hkf
    · have h2 : ((k : Int) + 1) * a.i_line_bytes ≤ firstLine (i_num_lines a) * a.i_line_bytes :=
        Int.mul_le_mul_of_nonneg_right (by omega) hL.le
      have h3 : ((k : Int) + 1) * a.i_line_bytes = (k : Int) * a.i_line_bytes + a.i_line_bytes := by
        ring
      rw [gtop _ (by rw [Int.toNat_of_nonneg (by omega)]; omega)]
      obtain ⟨v, e, hv⟩ := byte_of_buffer a.p_data ((k : Int) * a.i_line_bytes + j) (by omega)
        (by rw [g.in_len]; omega)
      exact ⟨v, e, Or.inr hv⟩
    · obtain ⟨t, ht⟩ : ∃ t : Nat, (k : Int) = firstLine (i_num_lines a) + t :=
        ⟨((k : Int) - firstLine (i_num_lines a)).toNat, by omega⟩
      have key := gin t j (by omega) hj
      rw [← ht] at key
      rw [key]
      split_ifs with hc
      · have hs0 : 0 ≤ firstLine (i_num_lines a) - t := by omega
        have hs1 : (0 : Int) ≤ (firstLine (i_num_lines a) - t) * a.i_line_bytes :=
          Int.mul_nonneg hs0 hL.le
        have hs2 := g.line_in_bytes (firstLine (i_num_lines a) - t) (i_num_lines a) (by omega)
          le_rfl
        obtain ⟨v, e, hv⟩ := byte_of_buffer a.p_data
          ((firstLine (i_num_lines a) - t) * a.i_line_bytes + j
            - rippleOffset h f_angle a.i_line_bytes (i_num_lines a) (firstLine (i_num_lines a))
              k)
          (by omega) (by rw [g.in_len]; omega)
        exact ⟨v, e, Or.inr hv⟩
      · exact ⟨_, rfl, Or.inl rfl⟩

/-! ## The first call after initialisation -/

/-- On a sound platform, the clock of the wave started from phase 0 and date 0
leaves the phase at 0 when `now` is 0 and makes it positive otherwise. -/
theorem waveClock_first (h : Host) (hs : h.Sound) (sys : vout_sys_t) (now : Int)
    (hphase : sys.f_angle = 0) (hlast : sys.last_date = 0) (hnow : 0 ≤ now)
    (hnow63 : now < 2 ^ 63) :
    (now = 0 → (waveClock h sys now).f_angle = 0) ∧
      (1 ≤ now → 0 < (waveClock h sys now).f_angle) := by
  have hw : wrap64 (now - sys.last_date) = now := by
    rw [wrap64_sub now sys.last_date hnow hnow63 (by omega) (by omega), hlast]; ring
  have e : (waveClock h sys now).f_angle =
      h.fl (0 + h.fl (h.fl ((now : Int) : ℚ) / 200000)) := by
    show h.fl (sys.f_angle + h.fl (h.fl ((wrap64 (now - sys.last_date) : Int) : ℚ) / 200000)) = _
    rw [hw, hphase]
  rw [e]
  constructor
  · intro h0
    rw [h0]
    simp [hs.fl_zero]
  · intro h1
    have hq : (1 : ℚ) ≤ (now : ℚ) := by exact_mod_cast h1
    have a1 : (1 : ℚ) ≤ h.fl (now : ℚ) := by
      have := hs.le_fl (now : ℚ) 1 0 (by norm_num) (by norm_num) (by simpa using hq)
      simpa using this
    have a2 : (1 : ℚ) / 2 ^ 18 ≤ h.fl (h.fl (now : ℚ) / 200000) := by
      have := hs.le_fl (h.fl (now : ℚ) / 200000) 1 18 (by norm_num) (by norm_num)
        (by rw [div_le_div_iff₀ (by norm_num) (by norm_num)]; norm_num; linarith)
      simpa using this
    have a3 : (1 : ℚ) / 2 ^ 18 ≤ h.fl (0 + h.fl (h.fl (now : ℚ) / 200000)) := by
      have := hs.le_fl (0 + h.fl (h.fl (now : ℚ) / 200000)) 1 18 (by norm_num) (by norm_num)
        (by simpa using a2)
      simpa using this
    have : (0 : ℚ) < 1 / 2 ^ 18 := by norm_num
    linarith

/-- On a sound platform, the clock of the ripple started from phase 0 and date 0
leaves the phase at 0 when `now` is 0 and makes it positive otherwise. -/
theorem rippleClock_first (h : Host) (hs : h.Sound) (sys : vout_sys_t) (now : Int)
    (hphase : sys.f_angle = 0) (hlast : sys.last_date = 0) (hnow : 0 ≤ now)
    (hnow63 : now < 2 ^ 63) :
    (now = 0 → (rippleClock h sys now).f_angle = 0) ∧
      (1 ≤ now → 0 < (rippleClock h sys now).f_angle) := by
  have hr : wrap64 (sys.last_date - now) = -now := by
    rw [wrap64_sub sys.last_date now (by omega) (by omega) hnow hnow63, hlast]; ring
  have e : (rippleClock h sys now).f_angle =
      h.fl (0 - h.fl (h.fl ((-now : Int) : ℚ) / 100000)) := by
    show h.fl (sys.f_angle - h.fl (h.fl ((wrap64 (sys.last_date - now) : Int) : ℚ) / 100000)) = _
    rw [hr, hphase]
  rw [e]
  constructor
  · intro h0
    rw [h0]
    simp [hs.fl_zero]
  · intro h1
    have hq : ((-now : Int) : ℚ) ≤ -1 := by exact_mod_cast (by omega : -now ≤ -1)
    have a1 : h.fl ((-now : Int) : ℚ) ≤ -1 := by
      have := hs.fl_le ((-now : Int) : ℚ) (-1) 0 (by norm_num) (by norm_num) (by simpa using hq)
      simpa using this
    generalize h.fl ((-now : Int) : ℚ) = x at a1 ⊢
    have a2 : h.fl (x / 100000) ≤ -1 / 2 ^ 17 := by
      have := hs.fl_le (x / 100000) (-1) 17 (by norm_num) (by norm_num)
        (by rw [div_le_div_iff₀ (by norm_num) (by norm_num)]; norm_num; linarith)
      simpa using this
    generalize h.fl (x / 100000) = y at a2 ⊢
    have a3 : (1 : ℚ) / 2 ^ 17 ≤ h.fl (0 - y) := by
      have := hs.le_fl (0 - y) 1 17 (by norm_num) (by norm_num)
        (by norm_num at a2 ⊢; linarith)
      simpa using this
    have : (0 : ℚ) < 1 / 2 ^ 17 := by norm_num
    linarith

/-! ## The claims -/

/-- C1. The loop body shared by `DistortWave` and `DistortRipple` (`in_step` is
the only difference between the two), on a line of `L` bytes read at `p_in` and
written at `p_out`, with a non-zero offset shorter than the line: the body
succeeds; when the offset is negative, output byte `j` is input byte
`j + |off|` for every `j < L - |off|` (content shifted left); when it is
positive, output byte `j + off` is input byte `j` for every `j < L - off`
(content shifted right); and the output buffer is the result of one copy of
exactly `L - |off|` bytes followed by one fill of `|off|` bytes. -/
theorem C1_shift_copies (black : UInt8) (src : List UInt8) (L in_step off : Int) (c : Cursor)
    (hne : off ≠ 0) (hoff : |off| < L) (ha : 0 ≤ c.p_in) (ha2 : c.p_in + L ≤ src.length)
    (hb : 0 ≤ c.p_out) (hb2 : c.p_out + L ≤ c.out.length) :
    ∃ c1, distortLine black src L L in_step off c = some c1 ∧
      (off < 0 → ∀ j : Nat, (j : Int) < L - |off| →
        c1.out[(c.p_out + j).toNat]? = src[(c.p_in + j + |off|).toNat]?) ∧
      (0 < off → ∀ j : Nat, (j : Int) < L - off →
        c1.out[(c.p_out + j + off).toNat]? = src[(c.p_in + j).toNat]?) ∧
      ∃ m1, FAST_MEMCPY c.out (if off < 0 then c.p_out else c.p_out + off) src
              (if off < 0 then c.p_in + |off| else c.p_in) (L - |off|) = some m1 ∧
            memset m1 (if off < 0 then c.p_out + (L - |off|) else c.p_out) black |off|
              = some c1.out := by
  obtain ⟨m, e, -, gm⟩ := distortLine_spec black src L in_step off c hoff ha ha2 hb hb2
  refine ⟨_, e, ?_, ?_, ?_⟩
  · intro hneg j hj
    rw [abs_of_neg hneg] at hj ⊢
    have hj0 : (0 : Int) ≤ j := Int.ofNat_nonneg j
    show m[(c.p_out + j).toNat]? = _
    rw [gm, Int.toNat_of_nonneg (by omega), if_pos (by omega), if_pos (by omega)]
    congr 1; omega
  · intro hpos j hj
    have hj0 : (0 : Int) ≤ j := Int.ofNat_nonneg j
    show m[(c.p_out + j + off).toNat]? = _
    rw [gm, Int.toNat_of_nonneg (by omega), if_pos (by omega), if_pos (by omega)]
    congr 1; omega
  · rw [abs_lt] at hoff
    unfold distortLine at e
    rcases lt_or_gt_of_ne hne with hneg | hpos
    · rw [if_pos hne, if_pos hneg] at e
      rw [if_pos hneg, if_pos hneg, if_pos hneg, abs_of_neg hneg]
      rw [show c.p_in - off = c.p_in + -off by ring, show L + off = L - -off by ring] at e
      cases hm1 : FAST_MEMCPY c.out c.p_out src (c.p_in + -off) (L - -off) with
      | none => rw [hm1] at e; simp at e
      | some m1 =>
        rw [hm1, Option.some_bind] at e
        simp only [] at e
        rw [show c.p_out + L + off = c.p_out + (L - -off) by ring] at e
        cases hm2 : memset m1 (c.p_out + (L - -off)) black (-off) with
        | none => rw [hm2] at e; simp at e
        | some m2 =>
          rw [hm2, Option.some_bind] at e
          simp only [Option.some.injEq, Cursor.mk.injEq, true_and] at e
          exact ⟨m1, rfl, by subst e; exact hm2⟩
    · have hnn : ¬ off < 0 := by omega
      rw [if_pos hne, if_neg hnn] at e
      rw [if_neg hnn, if_neg hnn, if_neg hnn, abs_of_pos hpos]
      cases hm1 : FAST_MEMCPY c.out (c.p_out + off) src c.p_in (L - off) with
      | none => rw [hm1] at e; simp at e
      | some m1 =>
        rw [hm1, Option.some_bind] at e
        cases hm2 : memset m1 c.p_out black off with
        | none => rw [hm2] at e; simp at e
        | some m2 =>
          rw [hm2, Option.some_bind] at e
          simp only [Option.some.injEq, Cursor.mk.injEq, true_and] at e
          exact ⟨m1, rfl, by subst e; exact hm2⟩


theorem C1_shift_copies_witness :
    ((-3 : Int) ≠ 0 ∧ |(-3 : Int)| < 8) ∧
      ∃ c1, distortLine 0 [1, 2, 3, 4, 5, 6, 7, 8] 8 8 8 (-3) ⟨0, 0, [9, 9, 9, 9, 9, 9, 9, 9]⟩
          = some c1 ∧ c1.out[0]? = some 4 ∧ c1.out[4]? = some 8 := by
  obtain ⟨c1, e, hneg, -, -⟩ := C1_shift_copies 0 [1, 2, 3, 4, 5, 6, 7, 8] 8 8 (-3)
    ⟨0, 0, [9, 9, 9, 9, 9, 9, 9, 9]⟩ (by decide) (by decide) (by decide) (by decide)
    (by decide) (by decide)
  exact ⟨⟨by decide, by decide⟩, c1, e, hneg (by decide) 0 (by decide),
    hneg (by decide) 4 (by decide)⟩


/-- C2. The loop body shared by both modes, for plane `p`, on a line of `L`
bytes with an offset shorter than the line: the `|off|` bytes of the
output line the copy does not cover (the last `|off|` when the offset is
negative, the first `off` when it is positive) all hold `0x00` when `p` is
`Y_PLANE` and `0x80` otherwise; and every byte of the output line is either
that fill byte or a byte of the input line, whatever the output buffer held
before. -/
theorem C2_fill_bytes (h : Host) (p : Int) (src : List UInt8) (L in_step off : Int)
    (c : Cursor) (hoff : |off| < L) (ha : 0 ≤ c.p_in)
    (ha2 : c.p_in + L ≤ src.length) (hb : 0 ≤ c.p_out) (hb2 : c.p_out + L ≤ c.out.length) :
    ∃ c1, distortLine (black_pixel h p) src L L in_step off c = some c1 ∧
      (off < 0 → ∀ j : Nat, L - |off| ≤ (j : Int) → (j : Int) < L →
        c1.out[(c.p_out + j).toNat]? = some (if p = h.Y_PLANE then 0x00 else 0x80)) ∧
      (0 < off → ∀ j : Nat, (j : Int) < off →
        c1.out[(c.p_out + j).toNat]? = some (if p = h.Y_PLANE then 0x00 else 0x80)) ∧
      (∀ j : Nat, (j : Int) < L →
        c1.out[(c.p_out + j).toNat]? =
          if 0 ≤ (j : Int) - off ∧ (j : Int) - off < L then src[(c.p_in + j - off).toNat]?
          else some (if p = h.Y_PLANE then 0x00 else 0x80)) := by
  obtain ⟨m, e, -, gm⟩ := distortLine_spec (black_pixel h p) src L in_step off c hoff ha ha2
    hb hb2
  have key : ∀ j : Nat, (j : Int) < L →
      m[(c.p_out + j).toNat]? =
        if 0 ≤ (j : Int) - off ∧ (j : Int) - off < L then src[(c.p_in + j - off).toNat]?
        else some (if p = h.Y_PLANE then 0x00 else 0x80) := by
    intro j hj
    have hj0 : (0 : Int) ≤ j := Int.ofNat_nonneg j
    rw [gm, Int.toNat_of_nonneg (by omega), if_pos (by omega),
      show c.p_out + (j : Int) - c.p_out = j by ring,
      show c.p_in + (j : Int) - off = c.p_in + j - off by ring]
    rfl
  refine ⟨_, e, ?_, ?_, key⟩
  · intro hneg j hj1 hj2
    rw [abs_of_neg hneg] at hj1
    show m[(c.p_out + j).toNat]? = _
    rw [key j hj2, if_neg (by omega)]
  · intro hpos j hj
    rw [abs_lt] at hoff
    show m[(c.p_out + j).toNat]? = _
    rw [key j (by omega), if_neg (by omega)]

theorem C2_fill_bytes_witness :
    ((2 : Int) ≠ 0 ∧ |(2 : Int)| < 6) ∧
      ∃ c1, distortLine (black_pixel exactHost 1) [1, 2, 3, 4, 5, 6] 6 6 (-6) 2
          ⟨0, 0, [9, 9, 9, 9, 9, 9]⟩ = some c1 ∧
        c1.out[0]? = some 0x80 ∧ c1.out[1]? = some 0x80 := by
  obtain ⟨c1, e, -, hpos, -⟩ := C2_fill_bytes exactHost 1 [1, 2, 3, 4, 5, 6] 6 (-6) 2
    ⟨0, 0, [9, 9, 9, 9, 9, 9]⟩ (by decide) (by decide) (by decide) (by decide) (by decide)
  exact ⟨⟨by decide, by decide⟩, c1, e, hpos (by decide) 0 (by decide),
    hpos (by decide) 1 (by decide)⟩

/-- C3. The loop body shared by both modes, on a line of `L` bytes whose offset
is 0: the body succeeds and the output line is, byte for byte, the input line
(all `L` bytes); the bytes of the output buffer outside the line are untouched. -/
theorem C3_zero_offset_identity (black : UInt8) (src : List UInt8) (L in_step : Int)
    (c : Cursor) (hL : 0 < L) (ha : 0 ≤ c.p_in) (ha2 : c.p_in + L ≤ src.length)
    (hb : 0 ≤ c.p_out) (hb2 : c.p_out + L ≤ c.out.length) :
    ∃ c1, distortLine black src L L in_step 0 c = some c1 ∧
      (∀ j : Nat, (j : Int) < L → c1.out[(c.p_out + j).toNat]? = src[(c.p_in + j).toNat]?) ∧
      (∀ x : Nat, ((x : Int) < c.p_out ∨ c.p_out + L ≤ (x : Int)) → c1.out[x]? = c.out[x]?) := by
  obtain ⟨m, e, -, gm⟩ := distortLine_spec black src L in_step 0 c
    (by rw [abs_zero]; exact hL) ha ha2 hb hb2
  refine ⟨_, e, ?_, ?_⟩
  · intro j hj
    have hj0 : (0 : Int) ≤ j := Int.ofNat_nonneg j
    show m[(c.p_out + j).toNat]? = _
    rw [gm, Int.toNat_of_nonneg (by omega), if_pos (by omega), if_pos (by omega)]
    congr 1; omega
  · intro x hx
    show m[x]? = _
    rw [gm, if_neg (by omega)]

theorem C3_zero_offset_identity_witness :
    ∃ c1, distortLine 0 [1, 2, 3, 4, 5, 6] 3 3 (-3) 0 ⟨3, 0, [9, 9, 9, 9]⟩ = some c1 ∧
      c1.out[0]? = some 4 ∧ c1.out[2]? = some 6 ∧ c1.out[3]? = some 9 := by
  obtain ⟨c1, e, hin, hout⟩ := C3_zero_offset_identity 0 [1, 2, 3, 4, 5, 6] 3 (-3)
    ⟨3, 0, [9, 9, 9, 9]⟩ (by decide) (by decide) (by decide) (by decide) (by decide)
  exact ⟨c1, e, hin 0 (by decide), hin 2 (by decide), hout 3 (by decide)⟩

/-- C4. Wave mode, on a sound platform: for every line length `0 ≤ lb` (an
`int`), every line count, every line index and every phase, the offset
`(int)(lb * sin(phase + 10 * i / n) / 20)` satisfies `|offset| ≤ lb / 20`. -/
theorem C4_wave_offset_bound (h : Host) (hs : h.Sound) (phase : ℚ) (lb n i : Int)
    (hlb : 0 ≤ lb) (hlb31 : lb < 2 ^ 31) :
    |waveOffset h phase lb n i| ≤ lb / 20 :=
  waveOffset_abs_le h hs phase lb n i hlb hlb31

theorem C4_wave_offset_bound_witness :
    exactHost.Sound ∧ |waveOffset exactHost 0 100 10 5| ≤ 100 / 20 :=
  ⟨exactHost_sound, C4_wave_offset_bound exactHost exactHost_sound 0 100 10 5
    (by decide) (by decide)⟩

/-- C5. Ripple mode, on a sound platform, with `firstLine = n * 4 / 5`: for every
line length `0 ≤ lb`, every line count `1 ≤ n` (the plane of `lb * n` bytes and
the product `n * 4` within the range of an `int`), every line
`firstLine ≤ i < n` and every phase, the offset
`(int)(lb * sin(phase + 2 * i / (1 + i - firstLine)) * (i - firstLine) / n / 8)`
satisfies `|offset| ≤ lb / 8`. -/
theorem C5_ripple_offset_bound (h : Host) (hs : h.Sound) (phase : ℚ) (lb n i : Int)
    (hlb : 0 ≤ lb) (hlb31 : lb < 2 ^ 31) (hn : 1 ≤ n) (hn4 : n * 4 < 2 ^ 31)
    (hbytes : lb * n < 2 ^ 31) (hf : firstLine n ≤ i) (hi : i < n) :
    |rippleOffset h phase lb n (firstLine n) i| ≤ lb / 8 := by
  have hfe := firstLine_eq n (by omega) hn4
  exact rippleOffset_abs_le h hs phase lb n (firstLine n) i hlb hlb31 hn (by omega) hbytes
    (by omega) hf hi

theorem C5_ripple_offset_bound_witness :
    exactHost.Sound ∧ firstLine 10 ≤ 9 ∧ |rippleOffset exactHost 0 100 10 (firstLine 10) 9| ≤ 100 / 8 :=
  ⟨exactHost_sound, by decide, C5_ripple_offset_bound exactHost exactHost_sound 0 100 10 9
    (by decide) (by decide) (by decide) (by decide) (by decide) (by decide) (by decide)⟩


/-- C6. Ripple mode, on a sound platform, for every state of the clock, every
date and every picture of matching geometry: `DistortRipple` succeeds, and in
every plane every output line with index below `firstLine = i_num_lines * 4 / 5`
is byte for byte the input line of the same index. -/
theorem C6_ripple_top_verbatim (h : Host) (hs : h.Sound) (sys : vout_sys_t) (now : Int)
    (inpic outpic : picture_t) (g : MatchingPictures inpic outpic)
    (h4 : ∀ (p : Nat) (a : plane_t), (p : Int) < inpic.i_planes → inpic.planes[p]? = some a →
      i_num_lines a * 4 < 2 ^ 31) :
    ∃ outpic1, (DistortRipple h sys now inpic outpic).2 = some outpic1 ∧
      ∀ (p : Nat) (a : plane_t), (p : Int) < inpic.i_planes → inpic.planes[p]? = some a →
        ∃ b1, outpic1.planes[p]? = some b1 ∧
          ∀ t j : Nat, (t : Int) < firstLine (i_num_lines a) → (j : Int) < a.i_line_bytes →
            b1.p_data[((t : Int) * a.i_line_bytes + j).toNat]? =
              a.p_data[((t : Int) * a.i_line_bytes + j).toNat]? := by
  obtain ⟨outpic1, e, -, -, -, hplane⟩ := DistortRipple_planes h hs sys now inpic outpic g h4
  refine ⟨outpic1, e, ?_⟩
  intro p a hp ha
  have hb : p < outpic.planes.length := by
    have := g.out_planes
    omega
  have gm := g.plane p a _ hp ha (List.getElem?_eq_getElem hb)
  have h4p := h4 p a hp ha
  obtain ⟨m, em, -, gtop, -, -⟩ := ripplePlane_spec h (rippleClock h sys now).f_angle p a _ gm
    h4p (fun t ht => rippleOffset_lt h hs _ _ _ gm h4p t ht)
  refine ⟨_, (hplane p a _ hp ha (List.getElem?_eq_getElem hb)).trans em, ?_⟩
  intro t j ht hj
  have hj0 : (0 : Int) ≤ j := Int.ofNat_nonneg j
  have ht0 : (0 : Int) ≤ t := Int.ofNat_nonneg t
  have hL := gm.line_pos
  have h1 : (0 : Int) ≤ (t : Int) * a.i_line_bytes := Int.mul_nonneg ht0 hL.le
  have h2 : ((t : Int) + 1) * a.i_line_bytes ≤ firstLine (i_num_lines a) * a.i_line_bytes :=
    Int.mul_le_mul_of_nonneg_right (by omega) hL.le
  have h3 : ((t : Int) + 1) * a.i_line_bytes = (t : Int) * a.i_line_bytes + a.i_line_bytes := by
    ring
  exact gtop _ (by rw [Int.toNat_of_nonneg (by omega)]; omega)

theorem C6_ripple_top_verbatim_witness :
    ∃ outpic1, (DistortRipple exactHost ⟨2, 0, 0⟩ 100000 tenPicture tenBlankPicture).2
        = some outpic1 ∧
      ∃ b1, outpic1.planes[0]? = some b1 ∧ b1.p_data[3]? = some 3 ∧ b1.p_data[7]? = some 7 := by
  obtain ⟨outpic1, e, hplanes⟩ := C6_ripple_top_verbatim exactHost exactHost_sound ⟨2, 0, 0⟩
    100000 tenPicture tenBlankPicture tenPicture_matching tenPicture_lines
  obtain ⟨b1, eb, hb⟩ := hplanes 0 tenLines (by decide) rfl
  exact ⟨outpic1, e, b1, eb, hb 3 0 (by decide) (by decide), hb 7 0 (by decide) (by decide)⟩


/-- C7. Ripple mode, on a sound platform, for every plane of matching geometry
and every line `firstLine + k` of the band: when the loop comes to output line
`firstLine + k` its output pointer is at line `firstLine + k` and its input
pointer at line `firstLine - k`; once that line is done they are at lines
`firstLine + k + 1` and `firstLine - k - 1`.  So the output lines are written
in ascending order while the input line read goes down by exactly one line per
output line. -/
theorem C7_ripple_reads_descend (h : Host) (hs : h.Sound) (f_angle : ℚ) (i_index : Int)
    (inp outp : plane_t) (g : Matching inp outp) (h4 : i_num_lines inp * 4 < 2 ^ 31) (k : Nat)
    (hk : firstLine (i_num_lines inp) + k < i_num_lines inp) :
    ∃ m m1,
      rippleCursor h f_angle i_index inp outp k =
        some ⟨(firstLine (i_num_lines inp) - k) * inp.i_line_bytes,
          (firstLine (i_num_lines inp) + k) * inp.i_line_bytes, m⟩ ∧
      rippleCursor h f_angle i_index inp outp (k + 1) =
        some ⟨(firstLine (i_num_lines inp) - k - 1) * inp.i_line_bytes,
          (firstLine (i_num_lines inp) + k + 1) * inp.i_line_bytes, m1⟩ ∧
      (firstLine (i_num_lines inp) - k - 1) * inp.i_line_bytes
        < (firstLine (i_num_lines inp) - k) * inp.i_line_bytes ∧
      (firstLine (i_num_lines inp) + k) * inp.i_line_bytes
        < (firstLine (i_num_lines inp) + k + 1) * inp.i_line_bytes := by
  obtain ⟨m, e, -⟩ := rippleCursor_spec h f_angle i_index inp outp g h4 k (by omega)
    (fun t ht => rippleOffset_lt h hs _ _ _ g h4 t (by omega))
  obtain ⟨m1, e1, -⟩ := rippleCursor_spec h f_angle i_index inp outp g h4 (k + 1)
    (by push_cast; omega) (fun t ht => rippleOffset_lt h hs _ _ _ g h4 t (by omega))
  have hL := g.line_pos
  refine ⟨m, m1, e, ?_, ?_, ?_⟩
  · rw [e1]
    simp only [Option.some.injEq, Cursor.mk.injEq, and_true]
    constructor <;> (push_cast; ring)
  · nlinarith
  · nlinarith

theorem C7_ripple_reads_descend_witness :
    ∃ m m1,
      rippleCursor exactHost 0 0 tenLines tenBlank 1 = some ⟨7, 9, m⟩ ∧
      rippleCursor exactHost 0 0 tenLines tenBlank 2 = some ⟨6, 10, m1⟩ := by
  obtain ⟨m, m1, e, e1, -, -⟩ := C7_ripple_reads_descend exactHost exactHost_sound 0 0
    tenLines tenBlank tenLines_matching (by decide) 1 (by decide)
  exact ⟨m, m1, e, e1⟩


/-- C8, as amended. Ripple mode, on a sound platform, for every picture of
matching geometry, every plane and every line `firstLine + k` of the band:
output line `firstLine + k` is built from input line `firstLine - k` (byte `j`
of the one is byte `j - offset` of the other, or the fill byte).  The band is
the mirror image, about line `firstLine`, of the lines at and above
`firstLine`. -/
theorem C8_ripple_mirror_about_first_line (h : Host) (hs : h.Sound) (sys : vout_sys_t)
    (now : Int) (inpic outpic : picture_t) (g : MatchingPictures inpic outpic)
    (h4 : ∀ (p : Nat) (a : plane_t), (p : Int) < inpic.i_planes → inpic.planes[p]? = some a →
      i_num_lines a * 4 < 2 ^ 31) :
    ∃ outpic1, (DistortRipple h sys now inpic outpic).2 = some outpic1 ∧
      ∀ (p : Nat) (a : plane_t), (p : Int) < inpic.i_planes → inpic.planes[p]? = some a →
        ∃ b1, outpic1.planes[p]? = some b1 ∧
          ∀ k j : Nat, firstLine (i_num_lines a) + k < i_num_lines a →
            (j : Int) < a.i_line_bytes →
            b1.p_data[((firstLine (i_num_lines a) + k) * a.i_line_bytes + j).toNat]? =
              if 0 ≤ (j : Int) - rippleOffset h (DistortRipple h sys now inpic outpic).1.f_angle
                    a.i_line_bytes (i_num_lines a) (firstLine (i_num_lines a))
                    (firstLine (i_num_lines a) + k) ∧
                  (j : Int) - rippleOffset h (DistortRipple h sys now inpic outpic).1.f_angle
                    a.i_line_bytes (i_num_lines a) (firstLine (i_num_lines a))
                    (firstLine (i_num_lines a) + k) < a.i_line_bytes then
                a.p_data[((firstLine (i_num_lines a) - k) * a.i_line_bytes + j
                  - rippleOffset h (DistortRipple h sys now inpic outpic).1.f_angle
                    a.i_line_bytes (i_num_lines a) (firstLine (i_num_lines a))
                    (firstLine (i_num_lines a) + k)).toNat]?
              else some (black_pixel h p) := by
  obtain ⟨outpic1, e, -, -, -, hplane⟩ := DistortRipple_planes h hs sys now inpic outpic g h4
  refine ⟨outpic1, e, ?_⟩
  intro p a hp ha
  have hb : p < outpic.planes.length := by
    have := g.out_planes
    omega
  have gm := g.plane p a _ hp ha (List.getElem?_eq_getElem hb)
  have h4p := h4 p a hp ha
  obtain ⟨m, em, -, -, -, gin⟩ := ripplePlane_spec h (rippleClock h sys now).f_angle p a _ gm
    h4p (fun t ht => rippleOffset_lt h hs _ _ _ gm h4p t ht)
  exact ⟨_, (hplane p a _ hp ha (List.getElem?_eq_getElem hb)).trans em, gin⟩

theorem C8_ripple_mirror_about_first_line_witness :
    ∃ outpic1, (DistortRipple exactHost ⟨2, 0, 0⟩ 100000 tenPicture tenBlankPicture).2
        = some outpic1 ∧
      ∃ b1, outpic1.planes[0]? = some b1 ∧ b1.p_data[9]? = some 7 := by
  obtain ⟨outpic1, e, hplanes⟩ := C8_ripple_mirror_about_first_line exactHost exactHost_sound
    ⟨2, 0, 0⟩ 100000 tenPicture tenBlankPicture tenPicture_matching tenPicture_lines
  obtain ⟨b1, eb, hb⟩ := hplanes 0 tenLines (by decide) rfl
  refine ⟨outpic1, e, b1, eb, ?_⟩
  have h9 := hb 1 0 (by decide) (by decide)
  rw [show i_num_lines tenLines = 10 by decide, show firstLine 10 = 8 by decide,
    show tenLines.i_line_bytes = 1 by decide, tenLines_offset _ 1 (by decide)] at h9
  exact h9

/-- C8, as stated, fails. The picture has one plane of ten lines of one byte,
line `i` holding the byte `i`; `firstLine` is 8 and every offset is 0 (no shift,
no fill).  The claim has output lines 8 and 9 built from input lines 9 and 8
(bytes 9 and 8); the code builds them from input lines 8 and 7. -/
theorem C8_band_is_not_reversed :
    (DistortRipple exactHost ⟨2, 0, 0⟩ 100000 tenPicture tenBlankPicture).2 =
        some ⟨1, [⟨[0, 1, 2, 3, 4, 5, 6, 7, 8, 7], 10, 1⟩]⟩ ∧
      ([0, 1, 2, 3, 4, 5, 6, 7, 8, 7] : List UInt8)[8]? ≠ tenLines.p_data[10 - 1 - 0]? ∧
      ([0, 1, 2, 3, 4, 5, 6, 7, 8, 7] : List UInt8)[9]? ≠ tenLines.p_data[10 - 1 - 1]? := by
  refine ⟨?_, by decide, by decide⟩
  rw [tenPicture_ripple]


/-- C10. One call of `DistortRipple` at date `now` on the state
`(phase, last_date)`, whatever the two pictures: the state becomes
`(phase - (last_date - now) / 100000, now)` in `double` arithmetic, which in
exact arithmetic is `phase + (now - last_date) / 100000`: the update has the
sign of the update of the wave and twice its size.  Hence, on a sound
platform, along calls at strictly increasing dates the phase never decreases. -/
theorem C10_ripple_clock (h : Host) (sys : vout_sys_t) (hlast : 0 ≤ sys.last_date)
    (hlast63 : sys.last_date < 2 ^ 63) :
    (∀ (now : Int) (inpic outpic : picture_t), 0 ≤ now → now < 2 ^ 63 →
      (DistortRipple h sys now inpic outpic).1 =
        { sys with
          f_angle := h.sub sys.f_angle (h.div (h.ofInt (sys.last_date - now)) 100000)
          last_date := now } ∧
      ((∀ x, h.fl x = x) →
        (DistortRipple h sys now inpic outpic).1.f_angle =
            sys.f_angle + ((now - sys.last_date : Int) : ℚ) / 100000 ∧
          (DistortRipple h sys now inpic outpic).1.f_angle - sys.f_angle =
            2 * ((DistortWave h sys now inpic outpic).1.f_angle - sys.f_angle))) ∧
    (h.Sound → h.fl sys.f_angle = sys.f_angle →
      ∀ calls : List (Int × picture_t × picture_t), (∀ c ∈ calls, c.1 < 2 ^ 63) →
        List.Chain (· < ·) sys.last_date (calls.map (·.1)) →
        List.Chain (· ≤ ·) sys.f_angle (ripplePhases h sys calls)) := by
  refine ⟨?_, fun hs hphase calls h63 hchain =>
    ripplePhases_chain h hs calls sys hphase hlast h63 hchain⟩
  intro now inpic outpic hnow hnow63
  have hr := wrap64_sub sys.last_date now hlast hlast63 hnow hnow63
  have hw := wrap64_sub now sys.last_date hnow hnow63 hlast hlast63
  refine ⟨?_, ?_⟩
  · show rippleClock h sys now = _
    unfold rippleClock
    rw [hr]
  · intro hfl
    have e1 : (DistortRipple h sys now inpic outpic).1.f_angle =
        sys.f_angle - ((sys.last_date - now : Int) : ℚ) / 100000 := by
      show (rippleClock h sys now).f_angle = _
      unfold rippleClock
      simp only [Host.sub, Host.div, Host.ofInt, hfl, hr]
    have e2 : (DistortWave h sys now inpic outpic).1.f_angle =
        sys.f_angle + ((now - sys.last_date : Int) : ℚ) / 200000 := by
      show (waveClock h sys now).f_angle = _
      unfold waveClock
      simp only [Host.add, Host.div, Host.ofInt, hfl, hw]
    rw [e1, e2]
    push_cast
    constructor <;> ring

theorem C10_ripple_clock_witness :
    (DistortRipple exactHost ⟨2, 0, 0⟩ 400000 tenPicture tenBlankPicture).1.f_angle =
        0 + ((400000 - 0 : Int) : ℚ) / 100000 ∧
      List.Chain (· ≤ ·) (0 : ℚ) (ripplePhases exactHost ⟨2, 0, 0⟩
        [(100000, tenPicture, tenBlankPicture), (300000, tenPicture, tenBlankPicture)]) := by
  obtain ⟨hcall, hseq⟩ := C10_ripple_clock exactHost ⟨2, 0, 0⟩ (by decide) (by decide)
  refine ⟨((hcall 400000 tenPicture tenBlankPicture (by decide) (by decide)).2
    (fun _ => rfl)).1, ?_⟩
  exact hseq exactHost_sound rfl _ (by decide)
    (List.Chain.cons (by decide) (List.Chain.cons (by decide) List.Chain.nil))

/-- C11, as amended. After `vout_Init` (phase 0, date 0) the first call of
either transform, at any date `now` of the range of `mtime_t`, measures the
time elapsed since date 0: the date of the state becomes `now` and the phase
becomes `now / 200000` in the wave and `now / 100000` in the ripple, computed in
`double` arithmetic (and exactly these values in exact arithmetic); on every
sound platform the phase is still 0 after the call only when `now` is 0, and is
positive otherwise. -/
theorem C11_first_call_counts_from_zero (h : Host) (sys0 : vout_sys_t) (now : Int)
    (inpic outpic : picture_t) (hnow : 0 ≤ now) (hnow63 : now < 2 ^ 63) :
    (vout_Init true true sys0).2 = { sys0 with f_angle := 0, last_date := 0 } ∧
    (DistortWave h (vout_Init true true sys0).2 now inpic outpic).1 =
      { sys0 with f_angle := h.add 0 (h.div (h.ofInt now) 200000), last_date := now } ∧
    (DistortRipple h (vout_Init true true sys0).2 now inpic outpic).1 =
      { sys0 with f_angle := h.sub 0 (h.div (h.ofInt (-now)) 100000), last_date := now } ∧
    ((∀ x, h.fl x = x) →
      (DistortWave h (vout_Init true true sys0).2 now inpic outpic).1.f_angle
          = (now : ℚ) / 200000 ∧
        (DistortRipple h (vout_Init true true sys0).2 now inpic outpic).1.f_angle
          = (now : ℚ) / 100000 ∧
        ((DistortWave h (vout_Init true true sys0).2 now inpic outpic).1.f_angle = 0 ↔ now = 0) ∧
        ((DistortRipple h (vout_Init true true sys0).2 now inpic outpic).1.f_angle = 0 ↔
          now = 0)) ∧
    (h.Sound →
      ((DistortWave h (vout_Init true true sys0).2 now inpic outpic).1.f_angle = 0 ↔ now = 0) ∧
        ((DistortRipple h (vout_Init true true sys0).2 now inpic outpic).1.f_angle = 0 ↔
          now = 0) ∧
        (1 ≤ now →
          0 < (DistortWave h (vout_Init true true sys0).2 now inpic outpic).1.f_angle ∧
            0 < (DistortRipple h (vout_Init true true sys0).2 now inpic outpic).1.f_angle)) := by
  have hw : wrap64 (now - 0) = now := by
    rw [wrap64_sub now 0 hnow hnow63 le_rfl (by decide)]; ring
  have hr : wrap64 (0 - now) = -now := by
    rw [wrap64_sub 0 now le_rfl (by decide) hnow hnow63]; ring
  refine ⟨rfl, ?_, ?_, ?_, ?_⟩
  · show waveClock h { sys0 with f_angle := 0, last_date := 0 } now = _
    unfold waveClock
    simp only [hw]
  · show rippleClock h { sys0 with f_angle := 0, last_date := 0 } now = _
    unfold rippleClock
    simp only [hr]
  · intro hfl
    have e1 : (DistortWave h (vout_Init true true sys0).2 now inpic outpic).1.f_angle
        = (now : ℚ) / 200000 := by
      show (waveClock h { sys0 with f_angle := 0, last_date := 0 } now).f_angle = _
      rw [waveClock_exact h hfl _ now le_rfl (by show (0 : Int) < 2 ^ 63; decide) hnow hnow63]
      simp
    have e2 : (DistortRipple h (vout_Init true true sys0).2 now inpic outpic).1.f_angle
        = (now : ℚ) / 100000 := by
      show (rippleClock h { sys0 with f_angle := 0, last_date := 0 } now).f_angle = _
      rw [rippleClock_exact h hfl _ now le_rfl (by show (0 : Int) < 2 ^ 63; decide) hnow hnow63]
      simp
    refine ⟨e1, e2, ?_, ?_⟩
    · rw [e1]
      constructor
      · intro e
        have : (now : ℚ) = 0 := by
          rcases div_eq_zero_iff.mp e with h0 | h0
          · exact h0
          · norm_num at h0
        exact_mod_cast this
      · intro e; rw [e]; simp
    · rw [e2]
      constructor
      · intro e
        have : (now : ℚ) = 0 := by
          rcases div_eq_zero_iff.mp e with h0 | h0
          · exact h0
          · norm_num at h0
        exact_mod_cast this
      · intro e; rw [e]; simp
  · intro hs
    obtain ⟨w0, w1⟩ := waveClock_first h hs { sys0 with f_angle := 0, last_date := 0 } now
      rfl rfl hnow hnow63
    obtain ⟨r0, r1⟩ := rippleClock_first h hs { sys0 with f_angle := 0, last_date := 0 } now
      rfl rfl hnow hnow63
    refine ⟨⟨fun e => ?_, fun e => w0 e⟩, ⟨fun e => ?_, fun e => r0 e⟩,
      fun h1 => ⟨w1 h1, r1 h1⟩⟩
    · by_contra hne
      have hpos := w1 (by omega)
      have e0 : (waveClock h { sys0 with f_angle := 0, last_date := 0 } now).f_angle = 0 := e
      rw [e0] at hpos
      exact lt_irrefl _ hpos
    · by_contra hne
      have hpos := r1 (by omega)
      have e0 : (rippleClock h { sys0 with f_angle := 0, last_date := 0 } now).f_angle = 0 := e
      rw [e0] at hpos
      exact lt_irrefl _ hpos

theorem C11_first_call_counts_from_zero_witness :
    (DistortWave exactHost (vout_Init true true ⟨1, 5, 7⟩).2 200000 tenPicture
        tenBlankPicture).1.f_angle = ((200000 : Int) : ℚ) / 200000 ∧
      (DistortRipple exactHost (vout_Init true true ⟨1, 5, 7⟩).2 200000 tenPicture
        tenBlankPicture).1.last_date = 200000 ∧
      0 < (DistortWave sampleHost (vout_Init true true ⟨1, 5, 7⟩).2 200000 tenPicture
        tenBlankPicture).1.f_angle := by
  obtain ⟨-, -, hripple, hexact, -⟩ := C11_first_call_counts_from_zero exactHost ⟨1, 5, 7⟩
    200000 tenPicture tenBlankPicture (by decide) (by decide)
  obtain ⟨-, -, -, -, hsound⟩ := C11_first_call_counts_from_zero sampleHost ⟨1, 5, 7⟩
    200000 tenPicture tenBlankPicture (by decide) (by decide)
  exact ⟨(hexact (fun _ => rfl)).1, by rw [hripple],
    ((hsound sampleHost_sound).2.2 (by decide)).1⟩

/-- C11, as stated, fails. After `vout_Init`, a first call at date 200000 on a
platform of exact arithmetic leaves the phase of the wave at 1 and the phase of
the ripple at 2, not at 0. -/
theorem C11_first_call_moves_phase :
    (vout_Init true true ⟨1, 5, 7⟩).2 = ⟨1, 0, 0⟩ ∧
    (DistortWave exactHost (vout_Init true true ⟨1, 5, 7⟩).2 200000 tenPicture
      tenBlankPicture).1 = ⟨1, 1, 200000⟩ ∧
    (DistortRipple exactHost (vout_Init true true ⟨2, 5, 7⟩).2 200000 tenPicture
      tenBlankPicture).1 = ⟨2, 2, 200000⟩ ∧
    (DistortWave exactHost (vout_Init true true ⟨1, 5, 7⟩).2 200000 tenPicture
      tenBlankPicture).1.f_angle ≠ 0 ∧
    (DistortRipple exactHost (vout_Init true true ⟨2, 5, 7⟩).2 200000 tenPicture
      tenBlankPicture).1.f_angle ≠ 0 := by
  have ew : (waveClock exactHost ⟨1, 0, 0⟩ 200000).f_angle = 1 := by
    rw [waveClock_exact exactHost (fun _ => rfl) _ 200000 (by decide) (by decide) (by decide)
      (by decide)]
    norm_num
  have er : (rippleClock exactHost ⟨2, 0, 0⟩ 200000).f_angle = 2 := by
    rw [rippleClock_exact exactHost (fun _ => rfl) _ 200000 (by decide) (by decide) (by decide)
      (by decide)]
    norm_num
  have ew1 : waveClock exactHost ⟨1, 0, 0⟩ 200000 = ⟨1, 1, 200000⟩ := by
    rw [← ew]; rfl
  have er1 : rippleClock exactHost ⟨2, 0, 0⟩ 200000 = ⟨2, 2, 200000⟩ := by
    rw [← er]; rfl
  refine ⟨rfl, ew1, er1, ?_, ?_⟩
  · show (waveClock exactHost ⟨1, 0, 0⟩ 200000).f_angle ≠ 0
    rw [ew]; norm_num
  · show (rippleClock exactHost ⟨2, 0, 0⟩ 200000).f_angle ≠ 0
    rw [er]; norm_num

/-- C12. `vout_Create` with the allocation succeeding, on any configuration
string `s`, with `t` the suffix of `s` that starts at its first `':'` (empty
when there is none): the call returns 0 and sets a mode; the mode is the
ripple exactly when `t` is `":ripple"` and the wave otherwise; and the warning
is sent exactly when `t` is neither `":wave"` nor `":ripple"`.  The empty
string, a string with no separator and a token in upper case all give the wave
with the warning. -/
theorem C12_mode_selection (fresh : vout_sys_t) (s : List Char) :
    (vout_Create true fresh s).ret = 0 ∧
    (∃ sys, (vout_Create true fresh s).p_sys = some sys ∧
      (sys.i_mode = DISTORT_MODE_RIPPLE ↔
        s.dropWhile (fun c => decide (c ≠ ':')) = String.toList ":ripple") ∧
      (sys.i_mode = DISTORT_MODE_WAVE ↔
        s.dropWhile (fun c => decide (c ≠ ':')) ≠ String.toList ":ripple")) ∧
    (Message.no_valid_mode ∈ (vout_Create true fresh s).messages ↔
      (s.dropWhile (fun c => decide (c ≠ ':')) ≠ String.toList ":wave" ∧
        s.dropWhile (fun c => decide (c ≠ ':')) ≠ String.toList ":ripple")) ∧
    vout_Create true fresh (String.toList "") =
      ⟨0, some { fresh with i_mode := DISTORT_MODE_WAVE }, [Message.no_valid_mode]⟩ ∧
    vout_Create true fresh (String.toList "distort") =
      ⟨0, some { fresh with i_mode := DISTORT_MODE_WAVE }, [Message.no_valid_mode]⟩ ∧
    vout_Create true fresh (String.toList "distort:WAVE") =
      ⟨0, some { fresh with i_mode := DISTORT_MODE_WAVE }, [Message.no_valid_mode]⟩ ∧
    vout_Create true fresh (String.toList "distort:Ripple") =
      ⟨0, some { fresh with i_mode := DISTORT_MODE_WAVE }, [Message.no_valid_mode]⟩ := by
  have hmodes : DISTORT_MODE_WAVE ≠ DISTORT_MODE_RIPPLE := by decide
  have hwr : String.toList ":wave" ≠ String.toList ":ripple" := by decide
  refine ⟨?_, ?_, ?_, rfl, rfl, rfl, rfl⟩
  · unfold vout_Create
    simp only [Bool.not_true, Bool.false_eq_true, if_false]
    split_ifs <;> rfl
  · rw [← skipToColon_eq]
    unfold vout_Create
    simp only [Bool.not_true, Bool.false_eq_true, if_false]
    by_cases hw : skipToColon s = String.toList ":wave"
    · rw [if_pos hw, hw]
      exact ⟨_, rfl, ⟨fun e => absurd e hmodes, fun e => absurd e hwr⟩,
        ⟨fun _ => hwr, fun _ => rfl⟩⟩
    · rw [if_neg hw]
      by_cases hr : skipToColon s = String.toList ":ripple"
      · rw [if_pos hr]
        exact ⟨_, rfl, ⟨fun _ => hr, fun _ => rfl⟩,
          ⟨fun e => absurd e.symm hmodes, fun e => absurd hr e⟩⟩
      · rw [if_neg hr]
        exact ⟨_, rfl, ⟨fun e => absurd e hmodes, fun e => absurd e hr⟩,
          ⟨fun _ => hr, fun _ => rfl⟩⟩
  · rw [← skipToColon_eq]
    unfold vout_Create
    simp only [Bool.not_true, Bool.false_eq_true, if_false]
    by_cases hw : skipToColon s = String.toList ":wave"
    · rw [if_pos hw]
      exact ⟨fun e => absurd e (List.not_mem_nil _), fun e => absurd hw e.1⟩
    · rw [if_neg hw]
      by_cases hr : skipToColon s = String.toList ":ripple"
      · rw [if_pos hr]
        exact ⟨fun e => absurd e (List.not_mem_nil _), fun e => absurd hr e.2⟩
      · rw [if_neg hr]
        exact ⟨fun _ => ⟨hw, hr⟩, fun _ => List.mem_singleton.mpr rfl⟩

/-- C13. The wave scenario: one luma plane of ten lines of a hundred bytes, every
byte `0xFF`, the phase 0 once the clock has moved, on a sound platform whose
sine is within a hundredth of the sine at 5.  The offset of line
5 is `(int)(100 * sin(5) / 20) = -4` (truncated toward zero; the floor is -5),
and output line 5 is 96 bytes `0xFF`, bytes 4 to 99 of input line 5, followed by
4 bytes `0x00`. -/
theorem C13_wave_scenario (h : Host) (hs : h.Sound) (hY : h.Y_PLANE = 0)
    (hsin : |((h.sin 5 : ℚ) : ℝ) - Real.sin 5| ≤ 1 / 100) (sys : vout_sys_t) (now : Int)
    (outpic : picture_t) (hphase : (DistortWave h sys now whitePicture outpic).1.f_angle = 0)
    (g : MatchingPictures whitePicture outpic) :
    waveOffset h 0 100 10 5 = -4 ∧
    ∃ outpic1 b1, (DistortWave h sys now whitePicture outpic).2 = some outpic1 ∧
      outpic1.planes[0]? = some b1 ∧
      (∀ j : Nat, j < 96 →
        b1.p_data[500 + j]? = whitePlane.p_data[500 + j + 4]? ∧
        b1.p_data[500 + j]? = some 0xFF) ∧
      (∀ j : Nat, 96 ≤ j → j < 100 → b1.p_data[500 + j]? = some 0x00) := by
  have hoff := waveOffset_scenario h hs (sin_five_range h hsin)
  refine ⟨hoff, ?_⟩
  obtain ⟨outpic1, e, -, -, -, hplane⟩ := DistortWave_planes h hs sys now whitePicture outpic g
  have hb : 0 < outpic.planes.length := by
    have : ((1 : Int)) ≤ outpic.planes.length := g.out_planes
    omega
  have gm := g.plane 0 whitePlane _ (by decide) rfl (List.getElem?_eq_getElem hb)
  have hphase1 : (waveClock h sys now).f_angle = 0 := hphase
  have hp0 := hplane 0 whitePlane _ (by decide) rfl (List.getElem?_eq_getElem hb)
  rw [hphase1] at hp0
  obtain ⟨m, em, -, -, gin⟩ := wavePlane_spec h 0 ((0 : Nat) : Int) whitePlane _ gm
    (fun t _ => waveOffset_lt h hs _ _ _ gm _ _)
  rw [show i_num_lines whitePlane = 10 by decide,
    show whitePlane.i_line_bytes = 100 by decide] at gin
  have hblack : black_pixel h ((0 : Nat) : Int) = 0x00 := by
    unfold black_pixel
    rw [if_pos (by rw [hY]; rfl)]
  refine ⟨outpic1, _, e, hp0.trans em, ?_, ?_⟩
  · intro j hj
    have hj1 : ((j : Nat) : Int) < 100 := by omega
    have key := gin 5 j (by decide) hj1
    rw [show ((5 : Nat) : Int) = 5 by rfl, hoff, if_pos (by omega)] at key
    rw [show ((5 : Int) * 100 + (j : Int)).toNat = 500 + j by omega,
      show ((5 : Int) * 100 + (j : Int) - -4).toNat = 500 + j + 4 by omega] at key
    exact ⟨key, key.trans (whitePlane_byte _ (by omega))⟩
  · intro j hj1 hj2
    have hj3 : ((j : Nat) : Int) < 100 := by omega
    have key := gin 5 j (by decide) hj3
    rw [show ((5 : Nat) : Int) = 5 by rfl, hoff, if_neg (by omega), hblack] at key
    rw [show ((5 : Int) * 100 + (j : Int)).toNat = 500 + j by omega] at key
    exact key

theorem C13_wave_scenario_witness :
    waveOffset sampleHost 0 100 10 5 = -4 ∧
      ∃ outpic1 b1, (DistortWave sampleHost ⟨1, 0, 7⟩ 7 whitePicture greyPicture).2
          = some outpic1 ∧
        outpic1.planes[0]? = some b1 ∧ b1.p_data[500]? = some 0xFF ∧
        b1.p_data[599]? = some 0x00 := by
  have hphase : (DistortWave sampleHost ⟨1, 0, 7⟩ 7 whitePicture greyPicture).1.f_angle = 0 := by
    show (waveClock sampleHost ⟨1, 0, 7⟩ 7).f_angle = 0
    rw [waveClock_exact sampleHost (fun _ => rfl) _ 7 (by decide) (by decide) (by decide)
      (by decide)]
    norm_num
  obtain ⟨hoff, outpic1, b1, e, eb, hcopy, hfill⟩ := C13_wave_scenario sampleHost
    sampleHost_sound rfl sampleHost_sin ⟨1, 0, 7⟩ 7 greyPicture hphase whitePicture_matching
  exact ⟨hoff, outpic1, b1, e, eb, (hcopy 0 (by decide)).2, hfill 99 (by decide) (by decide)⟩

/-- C14. Both transforms, on a sound platform, for every state of the clock,
every date and every input picture with an output picture of matching geometry
(and the same number of planes in use): the call succeeds; the output picture
keeps its number of planes; the planes not in use are untouched; and every
plane in use comes out with the length of a line, the size, the number of
lines and the length of the buffer of the input plane, its bytes past the last
line untouched, and every byte of each of its `i_num_lines` lines of
`i_line_bytes` bytes written from the input plane or with the fill byte. -/
theorem C14_geometry_kept (h : Host) (hs : h.Sound) (sys : vout_sys_t) (now : Int)
    (inpic outpic : picture_t) (g : MatchingPictures inpic outpic)
    (hplanes : outpic.i_planes = inpic.i_planes)
    (h4 : ∀ (p : Nat) (a : plane_t), (p : Int) < inpic.i_planes → inpic.planes[p]? = some a →
      i_num_lines a * 4 < 2 ^ 31) :
    (∃ outpic1, (DistortWave h sys now inpic outpic).2 = some outpic1 ∧
      outpic1.i_planes = inpic.i_planes ∧
      outpic1.planes.length = outpic.planes.length ∧
      (∀ p : Nat, inpic.i_planes ≤ (p : Int) → outpic1.planes[p]? = outpic.planes[p]?) ∧
      ∀ (p : Nat) (a b : plane_t), (p : Int) < inpic.i_planes → inpic.planes[p]? = some a →
        outpic.planes[p]? = some b →
        ∃ b1, outpic1.planes[p]? = some b1 ∧ Rewritten (black_pixel h p) a b b1) ∧
    (∃ outpic1, (DistortRipple h sys now inpic outpic).2 = some outpic1 ∧
      outpic1.i_planes = inpic.i_planes ∧
      outpic1.planes.length = outpic.planes.length ∧
      (∀ p : Nat, inpic.i_planes ≤ (p : Int) → outpic1.planes[p]? = outpic.planes[p]?) ∧
      ∀ (p : Nat) (a b : plane_t), (p : Int) < inpic.i_planes → inpic.planes[p]? = some a →
        outpic.planes[p]? = some b →
        ∃ b1, outpic1.planes[p]? = some b1 ∧ Rewritten (black_pixel h p) a b b1) := by
  constructor
  · obtain ⟨outpic1, e, hp, hl, hframe, hplane⟩ :=
      DistortWave_planes h hs sys now inpic outpic g
    refine ⟨outpic1, e, hp.trans hplanes, hl, hframe, ?_⟩
    intro p a b hp1 ha hb
    have gm := g.plane p a b hp1 ha hb
    obtain ⟨b1, e1, hr⟩ := wavePlane_rewritten h (waveClock h sys now).f_angle p a b gm
      (fun t _ => waveOffset_lt h hs _ _ _ gm _ _)
    exact ⟨b1, (hplane p a b hp1 ha hb).trans e1, hr⟩
  · obtain ⟨outpic1, e, hp, hl, hframe, hplane⟩ :=
      DistortRipple_planes h hs sys now inpic outpic g h4
    refine ⟨outpic1, e, hp.trans hplanes, hl, hframe, ?_⟩
    intro p a b hp1 ha hb
    have gm := g.plane p a b hp1 ha hb
    have h4p := h4 p a hp1 ha
    obtain ⟨b1, e1, hr⟩ := ripplePlane_rewritten h (rippleClock h sys now).f_angle p a b gm h4p
      (fun t ht => rippleOffset_lt h hs _ _ _ gm h4p t ht)
    exact ⟨b1, (hplane p a b hp1 ha hb).trans e1, hr⟩

theorem C14_geometry_kept_witness :
    ∃ outpic1 b1, (DistortWave exactHost ⟨1, 0, 0⟩ 100000 tenPicture tenBlankPicture).2
        = some outpic1 ∧
      outpic1.i_planes = 1 ∧ outpic1.planes[0]? = some b1 ∧ b1.i_line_bytes = 1 ∧
      b1.i_bytes = 10 ∧ b1.p_data.length = 10 := by
  obtain ⟨⟨outpic1, e, hp, -, -, hplane⟩, -⟩ := C14_geometry_kept exactHost exactHost_sound
    ⟨1, 0, 0⟩ 100000 tenPicture tenBlankPicture tenPicture_matching rfl tenPicture_lines
  obtain ⟨b1, eb, hlb, hbytes, -, hlen, -, -⟩ := hplane 0 tenLines tenBlank (by decide) rfl rfl
  exact ⟨outpic1, b1, e, hp, eb, hlb, hbytes, hlen⟩

/-- C15. `vout_Display` over the rounds of its loop, the first `waits.length` of
which obtain no picture and find no flag set, the next being `p`.  If `p`
obtains no picture and finds `b_die` or `b_error` set, the call returns at
once: it has only slept, nothing is dated or delivered, and the state of the
filter is unchanged.  If `p` obtains a picture, that picture is dated 50000
after the current date, transformed, and delivered, once.  Whatever the rounds,
at most one picture is delivered, and while no round obtains a picture nothing
is dated or delivered and the state is unchanged. -/
theorem C15_display_retry_and_abort (h : Host) (sys : vout_sys_t) (p_pic : picture_t)
    (date_now new_date : Int) (waits : List Poll) (p : Poll) (rest : List Poll)
    (hw : ∀ w ∈ waits, w.p_outpic = none ∧ w.b_die = false ∧ w.b_error = false) :
    (p.p_outpic = none → (p.b_die = true ∨ p.b_error = true) →
      vout_Display h sys p_pic date_now new_date (waits ++ p :: rest) =
        ⟨sys, List.replicate waits.length Event.msleep, true⟩) ∧
    (∀ p_outpic, p.p_outpic = some p_outpic →
      vout_Display h sys p_pic date_now new_date (waits ++ p :: rest) =
        ⟨(transform h sys new_date p_pic p_outpic).1,
          List.replicate waits.length Event.msleep ++
            [Event.date p_outpic (date_now + 50000),
              Event.display (transform h sys new_date p_pic p_outpic).2],
          true⟩) ∧
    (∀ polls : List Poll,
      (vout_Display h sys p_pic date_now new_date polls).events.countP Event.isDisplay ≤ 1 ∧
      ((∀ w ∈ polls, w.p_outpic = none) →
        (vout_Display h sys p_pic date_now new_date polls).sys = sys ∧
        (vout_Display h sys p_pic date_now new_date polls).events.countP Event.isDisplay = 0 ∧
        (vout_Display h sys p_pic date_now new_date polls).events.countP Event.isDate = 0)) := by
  refine ⟨?_, ?_, ?_⟩
  · intro hp hflag
    rw [vout_Display_waits h sys p_pic date_now new_date waits (p :: rest) hw]
    have hor : (p.b_die || p.b_error) = true := by
      rcases hflag with hd | he
      · rw [hd]; rfl
      · rw [he]; exact Bool.or_true _
    simp only [vout_Display, hp, hor, if_true, List.append_nil]
  · intro p_outpic hp
    rw [vout_Display_waits h sys p_pic date_now new_date waits (p :: rest) hw]
    simp only [vout_Display, hp]
  · intro polls
    refine ⟨vout_Display_once h sys p_pic date_now new_date polls, fun hnone => ?_⟩
    obtain ⟨hsys, hev⟩ := vout_Display_none h sys p_pic date_now new_date polls hnone
    refine ⟨hsys, ?_, ?_⟩
    · rw [List.countP_eq_zero]
      intro e he
      rw [hev e he]
      decide
    · rw [List.countP_eq_zero]
      intro e he
      rw [hev e he]
      decide

theorem C15_display_retry_and_abort_witness :
    vout_Display exactHost ⟨1, 0, 0⟩ tenPicture 5 9
        ([⟨none, false, false⟩, ⟨none, false, false⟩] ++
          (⟨none, false, true⟩ : Poll) :: [⟨some tenBlankPicture, false, false⟩]) =
      ⟨⟨1, 0, 0⟩, [Event.msleep, Event.msleep], true⟩ := by
  have hw : ∀ w ∈ ([⟨none, false, false⟩, ⟨none, false, false⟩] : List Poll),
      w.p_outpic = none ∧ w.b_die = false ∧ w.b_error = false := by
    intro w hmem
    simp only [List.mem_cons, List.mem_singleton, List.not_mem_nil, or_false, or_self] at hmem
    rw [hmem]
    exact ⟨rfl, rfl, rfl⟩
  exact (C15_display_retry_and_abort exactHost ⟨1, 0, 0⟩ tenPicture 5 9 _ ⟨none, false, true⟩
    [⟨some tenBlankPicture, false, false⟩] hw).1 rfl (Or.inr rfl)

/-- C16. On a sound platform, for every line length `1 ≤ lb`, every line count
`1 ≤ n` (the plane of `lb * n` bytes and the product `n * 4` within the range of
an `int`), every phase and every line: the offset of the wave, and the offset
of the ripple on a line of the band, are shorter than the line.  With such an
offset the copy has a positive length, and the loop body run on two buffers
that hold just the current input line and the current output line succeeds: no
copy and no fill leaves the line.  Hence both transforms succeed on every
picture of matching geometry. -/
theorem C16_no_access_leaves_the_line (h : Host) (hs : h.Sound) (phase : ℚ) (lb n i : Int)
    (hlb : 1 ≤ lb) (hlb31 : lb < 2 ^ 31) (hn : 1 ≤ n) (hn4 : n * 4 < 2 ^ 31)
    (hbytes : lb * n < 2 ^ 31) :
    |waveOffset h phase lb n i| < lb ∧
    (firstLine n ≤ i → i < n → |rippleOffset h phase lb n (firstLine n) i| < lb) ∧
    (∀ off : Int, |off| < lb →
      0 < lb - |off| ∧
      ∀ (black : UInt8) (src out : List UInt8) (in_step : Int),
        (src.length : Int) = lb → (out.length : Int) = lb →
        ∃ c1, distortLine black src lb lb in_step off ⟨0, 0, out⟩ = some c1) ∧
    (∀ (sys : vout_sys_t) (now : Int) (inpic outpic : picture_t),
      MatchingPictures inpic outpic →
      ∃ outpic1, (DistortWave h sys now inpic outpic).2 = some outpic1) ∧
    (∀ (sys : vout_sys_t) (now : Int) (inpic outpic : picture_t),
      MatchingPictures inpic outpic →
      (∀ (p : Nat) (a : plane_t), (p : Int) < inpic.i_planes → inpic.planes[p]? = some a →
        i_num_lines a * 4 < 2 ^ 31) →
      ∃ outpic1, (DistortRipple h sys now inpic outpic).2 = some outpic1) := by
  refine ⟨?_, ?_, ?_, ?_, ?_⟩
  · have := waveOffset_abs_le h hs phase lb n i (by omega) hlb31
    omega
  · intro hf hi
    have := rippleOffset_abs_le h hs phase lb n (firstLine n) i (by omega) hlb31 hn
      (by omega) hbytes (by have := firstLine_eq n (by omega) hn4; omega) hf hi
    omega
  · intro off hoff
    refine ⟨by omega, ?_⟩
    intro black src out in_step hsrc hout
    obtain ⟨m, e, -⟩ := distortLine_spec black src lb in_step off ⟨0, 0, out⟩ hoff le_rfl
      (by show (0 : Int) + lb ≤ src.length; omega) le_rfl
      (by show (0 : Int) + lb ≤ out.length; omega)
    exact ⟨_, e⟩
  · intro sys now inpic outpic g
    obtain ⟨outpic1, e, -⟩ := DistortWave_planes h hs sys now inpic outpic g
    exact ⟨outpic1, e⟩
  · intro sys now inpic outpic g h4
    obtain ⟨outpic1, e, -⟩ := DistortRipple_planes h hs sys now inpic outpic g h4
    exact ⟨outpic1, e⟩

theorem C16_no_access_leaves_the_line_witness :
    exactHost.Sound ∧ |waveOffset exactHost 0 100 10 5| < 100 ∧
      ∃ c1, distortLine 0 [1, 2, 3, 4] 4 4 4 (-3) ⟨0, 0, [9, 9, 9, 9]⟩ = some c1 := by
  obtain ⟨-, -, hline, -, -⟩ := C16_no_access_leaves_the_line exactHost exactHost_sound 0
    4 10 5 (by decide) (by decide) (by decide) (by decide) (by decide)
  have hw := (C16_no_access_leaves_the_line exactHost exactHost_sound 0 100 10 5 (by decide)
    (by decide) (by decide) (by decide) (by decide)).1
  exact ⟨exactHost_sound, hw, (hline (-3) (by decide)).2 0 [1, 2, 3, 4] [9, 9, 9, 9] 4 rfl rfl⟩

/-- C17. Ripple mode, on a sound platform, for every plane of matching geometry
and every line `firstLine + k` of the band: when the loop comes to output line
`firstLine + k` its input pointer is at input line `firstLine - k`, and that
line is a line of the plane: `0 ≤ firstLine - k < i_num_lines`, and its bytes
lie in the input buffer. -/
theorem C17_ripple_reads_stay_in_plane (h : Host) (hs : h.Sound) (f_angle : ℚ)
    (i_index : Int) (inp outp : plane_t) (g : Matching inp outp)
    (h4 : i_num_lines inp * 4 < 2 ^ 31) (k : Nat)
    (hk : firstLine (i_num_lines inp) + k < i_num_lines inp) :
    0 ≤ firstLine (i_num_lines inp) - k ∧
    firstLine (i_num_lines inp) - k < i_num_lines inp ∧
    ∃ c, rippleCursor h f_angle i_index inp outp k = some c ∧
      c.p_out = (firstLine (i_num_lines inp) + k) * inp.i_line_bytes ∧
      c.p_in = (firstLine (i_num_lines inp) - k) * inp.i_line_bytes ∧
      0 ≤ c.p_in ∧ c.p_in + inp.i_line_bytes ≤ inp.p_data.length := by
  have hn0 := g.num_lines_nonneg
  have hfe := firstLine_eq (i_num_lines inp) hn0 h4
  have hL := g.line_pos
  obtain ⟨m, e, -⟩ := rippleCursor_spec h f_angle i_index inp outp g h4 k (by omega)
    (fun t ht => rippleOffset_lt h hs _ _ _ g h4 t (by omega))
  have h0 : 0 ≤ firstLine (i_num_lines inp) - k := by omega
  have h1 : firstLine (i_num_lines inp) - k < i_num_lines inp := by omega
  refine ⟨h0, h1, _, e, rfl, rfl, Int.mul_nonneg h0 hL.le, ?_⟩
  rw [g.in_len]
  exact g.line_in_bytes _ _ h1 le_rfl

theorem C17_ripple_reads_stay_in_plane_witness :
    (0 : Int) ≤ firstLine (i_num_lines tenLines) - (1 : Nat) ∧
      ∃ c, rippleCursor exactHost 0 0 tenLines tenBlank 1 = some c ∧ c.p_in = 7 := by
  obtain ⟨h0, -, c, e, -, hin, -, -⟩ := C17_ripple_reads_stay_in_plane exactHost exactHost_sound
    0 0 tenLines tenBlank tenLines_matching (by decide) 1 (by decide)
  exact ⟨h0, c, e, hin⟩

/-- C18. Ripple mode, on a sound platform, for every line length `0 ≤ lb`,
every line count `1 ≤ n` (the plane of `lb * n` bytes and the product `n * 4`
within the range of an `int`), every line `firstLine ≤ i < n` of the band and
every phase: `|offset| ≤ lb / 40`, hence `|offset| ≤ lb / 20` as the comment of
line 415 has it; and the offset of the line `firstLine` itself is 0 at every
phase. -/
theorem C18_ripple_offset_fortieth (h : Host) (hs : h.Sound) (phase : ℚ) (lb n i : Int)
    (hlb : 0 ≤ lb) (hlb31 : lb < 2 ^ 31) (hn : 1 ≤ n) (hn4 : n * 4 < 2 ^ 31)
    (hbytes : lb * n < 2 ^ 31) (hf : firstLine n ≤ i) (hi : i < n) :
    |rippleOffset h phase lb n (firstLine n) i| ≤ lb / 40 ∧
    |rippleOffset h phase lb n (firstLine n) i| ≤ lb / 20 ∧
    ∀ phase0 : ℚ, rippleOffset h phase0 lb n (firstLine n) (firstLine n) = 0 := by
  have h40 := rippleOffset_abs_le_40 h hs phase lb n i hlb hlb31 hn hn4 hbytes hf hi
  exact ⟨h40, by omega, fun phase0 => rippleOffset_first h hs phase0 lb n (firstLine n)⟩

theorem C18_ripple_offset_fortieth_witness :
    exactHost.Sound ∧ |rippleOffset exactHost 0 100 10 (firstLine 10) 9| ≤ 100 / 40 :=
  ⟨exactHost_sound, (C18_ripple_offset_fortieth exactHost exactHost_sound 0 100 10 9
    (by decide) (by decide) (by decide) (by decide) (by decide) (by decide) (by decide)).1⟩

end Distort
